import Mathlib

/-!
# OpenMP runtime shim of the WebAssembly worker: static work-sharing and fork join

Shallow embedding of `src/src/wavm/openmp.cpp`.

Machine integers are mathematical integers (`Int`) together with explicit
reductions modulo `2 ^ w`:

* `I32` / `int` is a signed 32-bit value, `I64` a signed 64-bit value,
* `U32` / `unsigned int` is an unsigned 32-bit value,
* the template parameter `T` of `for_static_init` is the signed `w`-bit type
  (`w = 32` for `__kmpc_for_static_init_4`, `w = 64` for
  `__kmpc_for_static_init_8`) and `UT` is the unsigned `w`-bit type.

Every arithmetic operation of the source is followed by the reduction of its
C++ result type, so that narrowing conversions and wrap-around are visible.
-/

namespace wasm

set_option linter.unusedVariables false

/-! ## Fixed-width arithmetic -/

/-- Value of the signed two's-complement `w`-bit integer congruent to `x`. -/
def toSigned (w : Nat) (x : Int) : Int :=
  (x + 2 ^ (w - 1)) % 2 ^ w - 2 ^ (w - 1)

/-- Value of the unsigned `w`-bit integer congruent to `x`. -/
def toUnsigned (w : Nat) (x : Int) : Int :=
  x % 2 ^ w

/-- The integer `x` is representable in the signed `w`-bit type. -/
def InSigned (w : Nat) (x : Int) : Prop :=
  -(2 ^ (w - 1)) ≤ x ∧ x < 2 ^ (w - 1)

instance (w : Nat) (x : Int) : Decidable (InSigned w x) := by
  unfold InSigned
  exact inferInstance

/-- Signed `w`-bit addition. -/
def addS (w : Nat) (a b : Int) : Int := toSigned w (a + b)

/-- Signed `w`-bit subtraction. -/
def subS (w : Nat) (a b : Int) : Int := toSigned w (a - b)

/-- Signed `w`-bit multiplication. -/
def mulS (w : Nat) (a b : Int) : Int := toSigned w (a * b)

/-- Signed `w`-bit unary minus. -/
def negS (w : Nat) (a : Int) : Int := toSigned w (-a)

/-- Signed `w`-bit division: C++ `/` truncates towards zero. -/
def divS (w : Nat) (a b : Int) : Int := toSigned w (Int.tdiv a b)

/-- Unsigned `w`-bit addition. -/
def addU (w : Nat) (a b : Int) : Int := toUnsigned w (a + b)

/-- Unsigned `w`-bit subtraction. -/
def subU (w : Nat) (a b : Int) : Int := toUnsigned w (a - b)

/-- Unsigned `w`-bit multiplication. -/
def mulU (w : Nat) (a b : Int) : Int := toUnsigned w (a * b)

/-- Conversion to the common type of `T` and `unsigned int` under the usual
arithmetic conversions: `unsigned int` when `T` is `I32` (same rank, the
unsigned type wins), `I64` when `T` is `I64`. -/
def toMixed (w : Nat) (x : Int) : Int :=
  if w ≤ 32 then toUnsigned 32 x else toSigned w x

/-- Addition of a `T` and an `unsigned int` operand. -/
def addM (w : Nat) (a b : Int) : Int := toMixed w (toMixed w a + toMixed w b)

/-- Subtraction of a `T` and an `unsigned int` operand. -/
def subM (w : Nat) (a b : Int) : Int := toMixed w (toMixed w a - toMixed w b)

/-- Multiplication of a `T` and an `unsigned int` operand. -/
def mulM (w : Nat) (a b : Int) : Int := toMixed w (toMixed w a * toMixed w b)

/-! ## Outcomes -/

/-- Ways in which an intrinsic can fail to return normally. -/
inductive Fault where
  /-- The exception `std::runtime_error("Unimplemented scheduler N")`. -/
  | unimplementedScheduler (schedule : Int)
  /-- The exception `std::runtime_error("N OMP threads have exited with errors")`. -/
  | teamExecutionFailed (numErrors : Int)
  /-- Integer division or remainder by zero. -/
  | divisionByZero
  /-- The exception `std::runtime_error("Unsupported reduce operation")`. -/
  | unsupportedReduce
  deriving DecidableEq, Repr

/-- The four guest locations rewritten by `for_static_init`. -/
structure LoopBounds where
  lastIter : Int
  lower : Int
  upper : Int
  stride : Int
  deriving DecidableEq, Repr

/-- Outcomes are compared by evaluation. -/
instance instDecidableEqExcept {ε α : Type} [DecidableEq ε] [DecidableEq α] :
    DecidableEq (Except ε α)
  | .ok a, .ok b =>
    if h : a = b then isTrue (by rw [h]) else isFalse (by intro hc; cases hc; exact h rfl)
  | .error a, .error b =>
    if h : a = b then isTrue (by rw [h]) else isFalse (by intro hc; cases hc; exact h rfl)
  | .ok _, .error _ => isFalse (by intro hc; cases hc)
  | .error _, .ok _ => isFalse (by intro hc; cases hc)

namespace kmp

/-- Modelled from the spec: the `sched_type` constant `kmp::sch_static_chunked`
(declared in a header that is not part of the sources), value 33. -/
def sch_static_chunked : Int := 33

/-- Modelled from the spec: the `sched_type` constant `kmp::sch_static`
(declared in a header that is not part of the sources), value 34. -/
def sch_static : Int := 34

end kmp

/-! ## `for_static_init` -/

/-- The unsigned trip count computed at lines 635-645 of `openmp.cpp`.
`(int) (*upper - *lower)` casts the `T` difference to a 32-bit `int` before
the division; the division by `-incr` faults when `-incr` is zero. -/
def tripCount (w : Nat) (lower upper incr : Int) : Except Fault Int :=
  if incr = 1 then
    .ok (toUnsigned w (addS w (subS w upper lower) 1))
  else if incr = -1 then
    .ok (toUnsigned w (addS w (subS w lower upper) 1))
  else if 0 < incr then
    .ok (toUnsigned w (addS w (divS w (toSigned 32 (subS w upper lower)) incr) 1))
  else if negS w incr = 0 then
    .error .divisionByZero
  else
    .ok (toUnsigned w (addS w (divS w (toSigned 32 (subS w lower upper)) (negS w incr)) 1))

/-- The `kmp::sch_static_chunked` case (lines 648-659). `span` is declared
`int`; `(unsigned int) chunk` narrows the chunk to 32 bits. -/
def staticChunked (w : Nat) (numThreads thisThreadNumber : Int) (tc : Int)
    (b : LoopBounds) (incr chunk : Int) : Except Fault LoopBounds :=
  let chunk := if chunk < 1 then 1 else chunk
  let span := toSigned 32 (mulS w chunk incr)
  let stride := toSigned w (mulS 32 span numThreads)
  let lower := addS w b.lower (toSigned w (mulS 32 span thisThreadNumber))
  let upper := subS w (addS w lower (toSigned w span)) incr
  if toUnsigned 32 chunk = 0 then
    .error .divisionByZero
  else if toUnsigned w numThreads = 0 then
    .error .divisionByZero
  else
    let owner := (subU w tc 1 / toUnsigned 32 chunk) % toUnsigned w numThreads
    .ok { lastIter := if toUnsigned w thisThreadNumber = owner then 1 else 0,
          lower := lower, upper := upper, stride := stride }

/-- The `kmp::sch_static` case (lines 660-685). `small_chunk` and `extras`
are declared `U32`. -/
def staticBalanced (w : Nat) (numThreads thisThreadNumber : Int) (tc : Int)
    (b : LoopBounds) (incr : Int) : Except Fault LoopBounds :=
  if tc < toUnsigned w numThreads then
    if toUnsigned w thisThreadNumber < tc then
      let lower := addS w b.lower (mulS w thisThreadNumber incr)
      .ok { lastIter := if toUnsigned w thisThreadNumber = subU w tc 1 then 1 else 0,
            lower := lower, upper := lower, stride := toSigned w tc }
    else
      .ok { lastIter := if toUnsigned w thisThreadNumber = subU w tc 1 then 1 else 0,
            lower := addS w b.upper incr, upper := b.upper, stride := toSigned w tc }
  else if toUnsigned w numThreads = 0 then
    .error .divisionByZero
  else
    let small_chunk := toUnsigned 32 (tc / toUnsigned w numThreads)
    let extras := toUnsigned 32 (tc % toUnsigned w numThreads)
    let t := toUnsigned 32 thisThreadNumber
    let offset := addU 32 (mulU 32 t small_chunk) (if t < extras then t else extras)
    let lower := toSigned w (addM w b.lower (mulM w incr offset))
    let upper := toSigned w
      (subM w (addM w lower (mulM w small_chunk incr)) (if t < extras then 0 else incr))
    .ok { lastIter := if thisThreadNumber = subS 32 numThreads 1 then 1 else 0,
          lower := lower, upper := upper, stride := toSigned w tc }

/-- The template `for_static_init<T>` (lines 622-690), `T` being the signed
`w`-bit type. `numThreads` is `thisLevel->numThreads`, `thisThreadNumber` the
thread-local thread number (both `int`); `b` holds the contents of the four
guest locations on entry, the result their contents on return. -/
def for_static_init (w : Nat) (numThreads thisThreadNumber : Int) (schedule : Int)
    (b : LoopBounds) (incr chunk : Int) : Except Fault LoopBounds :=
  if numThreads = 1 then
    .ok { b with
          lastIter := 1,
          stride := if 0 < incr then addS w (subS w b.upper b.lower) 1
                    else negS w (addS w (subS w b.lower b.upper) 1) }
  else
    match tripCount w b.lower b.upper incr with
    | .error e => .error e
    | .ok tc =>
      if schedule = kmp.sch_static_chunked then
        staticChunked w numThreads thisThreadNumber tc b incr chunk
      else if schedule = kmp.sch_static then
        staticBalanced w numThreads thisThreadNumber tc b incr
      else
        .error (.unimplementedScheduler schedule)

/-- The intrinsic `__kmpc_for_static_init_4`: `for_static_init<I32>`. -/
def __kmpc_for_static_init_4 (numThreads thisThreadNumber : Int) (schedule : Int)
    (b : LoopBounds) (incr chunk : Int) : Except Fault LoopBounds :=
  for_static_init 32 numThreads thisThreadNumber schedule b incr chunk

/-- The intrinsic `__kmpc_for_static_init_8`: `for_static_init<I64>`. -/
def __kmpc_for_static_init_8 (numThreads thisThreadNumber : Int) (schedule : Int)
    (b : LoopBounds) (incr chunk : Int) : Except Fault LoopBounds :=
  for_static_init 64 numThreads thisThreadNumber schedule b incr chunk


/-- The template `for_static_init<T>` (lines 622-690) as a sequence of stores:
the contents of the four guest locations when the call returns or throws,
each assignment of the source being applied in its order, and the exception
if one is thrown. A throw or a division by zero leaves the stores made before
it. -/
def for_static_init_stores (w : Nat) (numThreads thisThreadNumber : Int) (schedule : Int)
    (b : LoopBounds) (incr chunk : Int) : LoopBounds × Option Fault :=
  if numThreads = 1 then
    let b := { b with lastIter := 1 }
    let b := { b with stride := if 0 < incr then addS w (subS w b.upper b.lower) 1
                                else negS w (addS w (subS w b.lower b.upper) 1) }
    (b, none)
  else
    match tripCount w b.lower b.upper incr with
    | .error e => (b, some e)
    | .ok tc =>
      if schedule = kmp.sch_static_chunked then
        let chunk := if chunk < 1 then 1 else chunk
        let span := toSigned 32 (mulS w chunk incr)
        let b := { b with stride := toSigned w (mulS 32 span numThreads) }
        let b := { b with lower := addS w b.lower (toSigned w (mulS 32 span thisThreadNumber)) }
        let b := { b with upper := subS w (addS w b.lower (toSigned w span)) incr }
        if toUnsigned 32 chunk = 0 then (b, some .divisionByZero)
        else if toUnsigned w numThreads = 0 then (b, some .divisionByZero)
        else
          let owner := (subU w tc 1 / toUnsigned 32 chunk) % toUnsigned w numThreads
          ({ b with lastIter := if toUnsigned w thisThreadNumber = owner then 1 else 0 }, none)
      else if schedule = kmp.sch_static then
        if tc < toUnsigned w numThreads then
          let b :=
            if toUnsigned w thisThreadNumber < tc then
              let b := { b with lower := addS w b.lower (mulS w thisThreadNumber incr) }
              { b with upper := b.lower }
            else
              { b with lower := addS w b.upper incr }
          let b := { b with
            lastIter := if toUnsigned w thisThreadNumber = subU w tc 1 then 1 else 0 }
          ({ b with stride := toSigned w tc }, none)
        else if toUnsigned w numThreads = 0 then (b, some .divisionByZero)
        else
          let small_chunk := toUnsigned 32 (tc / toUnsigned w numThreads)
          let extras := toUnsigned 32 (tc % toUnsigned w numThreads)
          let t := toUnsigned 32 thisThreadNumber
          let offset := addU 32 (mulU 32 t small_chunk) (if t < extras then t else extras)
          let b := { b with lower := toSigned w (addM w b.lower (mulM w incr offset)) }
          let last := if t < extras then 0 else incr
          let b := { b with
            upper := toSigned w (subM w (addM w b.lower (mulM w small_chunk incr)) last) }
          let b := { b with
            lastIter := if thisThreadNumber = subS 32 numThreads 1 then 1 else 0 }
          ({ b with stride := toSigned w tc }, none)
      else
        (b, some (.unimplementedScheduler schedule))

/-! ## Loops and their iterations -/

/-- Number of iterations of the loop `for (i = lower; i <= upper; i += incr)`
when `incr > 0`, of `for (i = lower; i >= upper; i += incr)` when `incr < 0`. -/
def iterations (lower upper incr : Int) : Int :=
  if 0 < incr then
    if lower ≤ upper then (upper - lower) / incr + 1 else 0
  else if incr < 0 then
    if upper ≤ lower then (lower - upper) / (-incr) + 1 else 0
  else 0

/-- The value `x` is taken by the loop variable of the loop from `lower` to
`upper` (inclusive) by steps of `incr`. -/
def InLoop (lower upper incr x : Int) : Prop :=
  if 0 < incr then lower ≤ x ∧ x ≤ upper ∧ (x - lower) % incr = 0
  else incr < 0 ∧ upper ≤ x ∧ x ≤ lower ∧ (lower - x) % incr = 0

instance (lower upper incr x : Int) : Decidable (InLoop lower upper incr x) := by
  unfold InLoop
  exact inferInstance

/-- A loop with at least one iteration whose bounds, increment, bound
difference and iteration count are all representable in the signed `w`-bit
type: no fixed-width overflow occurs when the loop is described. -/
def NonemptyLoop (w : Nat) (lower upper incr : Int) : Prop :=
  InSigned w lower ∧ InSigned w upper ∧ InSigned w incr ∧ incr ≠ 0 ∧
  (0 < incr → lower ≤ upper) ∧ (incr < 0 → upper ≤ lower) ∧
  InSigned w (upper - lower) ∧ InSigned w (lower - upper) ∧
  InSigned w (iterations lower upper incr)

instance (w : Nat) (lower upper incr : Int) : Decidable (NonemptyLoop w lower upper incr) := by
  unfold NonemptyLoop
  exact inferInstance

/-- The sub-ranges `[lower', upper']` (stepped by `incr`) written by
`__kmpc_for_static_init_4` for the threads `0 .. n - 1` are pairwise disjoint
and their union is exactly the set `P`; every thread's call returns. -/
def RangesPartition (n schedule : Int) (b : LoopBounds) (incr chunk : Int)
    (P : Int → Prop) : Prop :=
  (∀ t, 0 ≤ t → t < n →
    ∃ r, __kmpc_for_static_init_4 n t schedule b incr chunk = .ok r) ∧
  (∀ x, P x ↔ ∃ t r, 0 ≤ t ∧ t < n ∧
    __kmpc_for_static_init_4 n t schedule b incr chunk = .ok r ∧
    InLoop r.lower r.upper incr x) ∧
  (∀ t u r r' x, 0 ≤ t → t < n → 0 ≤ u → u < n →
    __kmpc_for_static_init_4 n t schedule b incr chunk = .ok r →
    __kmpc_for_static_init_4 n u schedule b incr chunk = .ok r' →
    InLoop r.lower r.upper incr x → InLoop r'.lower r'.upper incr x → t = u)

/-- The upper bound `u` of a chunk clipped to the upper bound of the loop, in
the direction of `incr`. -/
def clipUpper (incr upper u : Int) : Int :=
  if 0 < incr then min u upper else max u upper

/-- The value `x` is an iteration of chunk number `k` of a thread whose call
wrote the bounds `r`: the range `[lower', upper']` advanced by `k` strides
and clipped to the upper bound of the loop. -/
def InChunk (r : LoopBounds) (incr upper k x : Int) : Prop :=
  InLoop (r.lower + k * r.stride) (clipUpper incr upper (r.upper + k * r.stride)) incr x

instance (r : LoopBounds) (incr upper k x : Int) : Decidable (InChunk r incr upper k x) := by
  unfold InChunk
  exact inferInstance

/-! ## Joining the team of `__kmpc_fork_call` -/

/-- What waiting for one chained call gives in the distributed branch
(lines 313-321): a result message carrying `returnValue`, a timeout
(`RedisNoResponseException`), or any other exception. -/
inductive ChildWait where
  | result (returnValue : Int)
  | timedOut
  | exception
  deriving DecidableEq, Repr

/-- The `returnCode` of one chained call: initialised to 1 and overwritten by
`result.returnvalue()` only when the wait succeeds. -/
def returnCode : ChildWait → Int
  | .result returnValue => returnValue
  | .timedOut => 1
  | .exception => 1

/-- Error tally of the distributed branch (lines 306-326):
`if (returnCode) numErrors++` for every child in thread-number order. -/
def countChildErrors (children : List ChildWait) : Int :=
  children.foldl (fun numErrors c => if returnCode c ≠ 0 then addS 64 numErrors 1 else numErrors) 0

/-- Error tally of the single-host branch (lines 376-380):
`numErrors += f.get()` over the futures in submission order, in `I64`. -/
def awaitAllThreads (codes : List Int) : Int :=
  codes.foldl (fun numErrors code => addS 64 numErrors code) 0

/-- The join phase of `__kmpc_fork_call`: the branch is chosen by
`0 > thisLevel->userDefaultDevice`; `children` are the waits on the chained
calls, `codes` the values returned by the futures of the local team members.
A nonzero tally `N` throws "N OMP threads have exited with errors". -/
def forkJoin (userDefaultDevice : Int) (children : List ChildWait) (codes : List Int) :
    Except Fault Unit :=
  if 0 > userDefaultDevice then
    if countChildErrors children ≠ 0 then
      .error (.teamExecutionFailed (countChildErrors children))
    else .ok ()
  else
    if awaitAllThreads codes ≠ 0 then
      .error (.teamExecutionFailed (awaitAllThreads codes))
    else .ok ()

/-! ## Level and thread state -/

/-- Modelled from the spec: the record `Level` (declared in `wavm/openmp/Level.h`,
which is not part of the sources), with the fields read and written by
`openmp.cpp` through `thisLevel->`. -/
structure Level where
  depth : Int
  numThreads : Int
  maxActiveLevel : Int
  userDefaultDevice : Int
  deriving DecidableEq, Repr

/-- The state that the intrinsics of one thread read and write: the
thread-local `thisThreadNumber` and `thisLevel`, and the thread-count knobs
`wantedNumThreads` and `pushedNumThreads`, which `openmp.cpp` names without
qualification. All four are declared in headers that are not part of the
sources. -/
structure ThreadState where
  thisThreadNumber : Int
  thisLevel : Level
  wantedNumThreads : Int
  pushedNumThreads : Int
  deriving DecidableEq, Repr

/-- The intrinsic `omp_get_max_active_levels` (lines 78-81). -/
def omp_get_max_active_levels (s : ThreadState) : Int :=
  s.thisLevel.maxActiveLevel

/-- The intrinsic `omp_set_max_active_levels` (lines 83-91): a negative level
is warned about and ignored. -/
def omp_set_max_active_levels (s : ThreadState) (level : Int) : ThreadState :=
  if level < 0 then s
  else { s with thisLevel := { s.thisLevel with maxActiveLevel := level } }

/-- The intrinsic `__kmpc_push_num_threads` (lines 202-208). -/
def __kmpc_push_num_threads (s : ThreadState) (loc globalTid numThreads : Int) : ThreadState :=
  if numThreads > 0 then { s with pushedNumThreads := numThreads } else s

/-- The intrinsic `omp_set_num_threads` (lines 210-215). -/
def omp_set_num_threads (s : ThreadState) (numThreads : Int) : ThreadState :=
  if numThreads > 0 then { s with wantedNumThreads := numThreads } else s

/-- The intrinsic `omp_get_num_devices` (lines 600-603). -/
def omp_get_num_devices (s : ThreadState) : Int :=
  s.thisLevel.userDefaultDevice

/-- The C library function `abs` on `int`: the negation is a signed 32-bit
negation, so the most negative value is mapped to itself. -/
def abs (x : Int) : Int :=
  if x < 0 then negS 32 x else x

/-- The intrinsic `omp_set_default_device` (lines 608-620). -/
def omp_set_default_device (s : ThreadState) (defaultDeviceNumber : Int) : ThreadState :=
  if abs defaultDeviceNumber > 1 then s
  else { s with thisLevel := { s.thisLevel with userDefaultDevice := defaultDeviceNumber } }

/-- Modelled from the spec: `Level::get_next_level_num_threads` (not part of
the sources). The next team size is `pushedNumThreads` if positive, else
`wantedNumThreads` if positive, else the implementation default, clamped to 1
if `depth + 1 > maxActiveLevel`. -/
def get_next_level_num_threads (defaultNumThreads : Int) (s : ThreadState) : Int :=
  if s.thisLevel.depth + 1 > s.thisLevel.maxActiveLevel then 1
  else if s.pushedNumThreads > 0 then s.pushedNumThreads
  else if s.wantedNumThreads > 0 then s.wantedNumThreads
  else defaultNumThreads

/-- Modelled from the spec: the constructor `SingleHostLevel(parent, numThreads)`
(not part of the sources). The new Level has the given team size, the depth of
its parent plus one, and inherits the policy fields. -/
def SingleHostLevel (parent : Level) (numThreads : Int) : Level :=
  { depth := parent.depth + 1,
    numThreads := numThreads,
    maxActiveLevel := parent.maxActiveLevel,
    userDefaultDevice := parent.userDefaultDevice }

/-! ## Reductions -/

/-- Modelled from the spec: the enumeration `ReduceTypes` (declared in a
header that is not part of the sources); its five values are the cases of the
switch of `startReduction`. -/
inductive ReduceTypes where
  | criticalBlock
  | emptyBlock
  | atomicBlock
  | notDefined
  | multiHostSum
  deriving DecidableEq, Repr

/-- An operation on `thisLevel->reduceMutex`. -/
inductive MutexOp where
  | lock
  | unlock
  deriving DecidableEq, Repr

/-- What a call of `startReduction` does: the operations on `reduceMutex`
performed before it returns or throws, and the returned value or the
exception. -/
structure Reduction where
  mutexOps : List MutexOp
  outcome : Except Fault Int
  deriving DecidableEq

/-- The function `startReduction` (lines 497-521). `reductionMethod` is the
value of `thisLevel->reductionMethod()`, a method of `Level` that is not part
of the sources. -/
def startReduction (reductionMethod : ReduceTypes) (reduce_data : Int) : Reduction :=
  match reductionMethod with
  | .criticalBlock => { mutexOps := [.lock], outcome := .ok 1 }
  | .emptyBlock => { mutexOps := [], outcome := .ok 1 }
  | .atomicBlock => { mutexOps := [], outcome := .ok 2 }
  | .notDefined => { mutexOps := [], outcome := .error .unsupportedReduce }
  | .multiHostSum => { mutexOps := [], outcome := .ok 1 }

/-- Modelled from the spec: the method `Level::reductionMethod()` (not part of
the sources). The spec has the reduction method chosen from the five values
of `ReduceTypes` based on team size and device: the multi-host sum on the
distributed device (`userDefaultDevice < 0`), and on the local device the
critical block for a team of more than one thread and the empty block for a
team of one. -/
def Level.reductionMethod (thisLevel : Level) : ReduceTypes :=
  if thisLevel.userDefaultDevice < 0 then .multiHostSum
  else if thisLevel.numThreads > 1 then .criticalBlock
  else .emptyBlock

/-- The intrinsic `__kmpc_reduce` (lines 547-553). -/
def __kmpc_reduce (reductionMethod : ReduceTypes)
    (loc gtid num_vars reduce_size reduce_data reduce_func lck : Int) : Reduction :=
  startReduction reductionMethod reduce_data

/-- The intrinsic `__kmpc_reduce_nowait` (lines 566-572). -/
def __kmpc_reduce_nowait (reductionMethod : ReduceTypes)
    (loc gtid num_vars reduce_size reduce_data reduce_func lck : Int) : Reduction :=
  startReduction reductionMethod reduce_data

/-- The fields of `faabric::Message` set on a chained call (lines 285-297).
`lineage` is what `thisLevel->snapshot_parent(call)` records: the parent
Level. -/
structure Message where
  user : String
  function : String
  id : Int
  isAsync : Bool
  ompFunctionArgs : List Int
  snapshotKey : String
  snapshotSize : Int
  funcPtr : Int
  ompThreadNum : Int
  ompNumThreads : Int
  lineage : Level
  deriving DecidableEq, Repr

/-- The `LocalThreadArgs` handed to the OMP pool for one team member (lines
361-371): thread number, Level, microtask and the argument list. -/
structure LocalThreadArgs where
  tid : Int
  level : Level
  func : Int
  funcArgs : List Int
  deriving DecidableEq, Repr

/-- What `__kmpc_fork_call` reads from outside the thread state: the
executing call, the value of `std::rand()`, the size returned by
`snapshotToState`, the `U32` array at `argsPtr` in guest memory, the id that
`messageFactory` gives to the message of each thread number, the answer of
`getFunctionResult` for each id, the value returned by the future of each
local member, and the default team size of the host. -/
structure ForkEnv where
  user : String
  function : String
  rand : Nat
  threadSnapshotSize : Int
  nativeArgs : Nat → Int
  messageId : Nat → Int
  getFunctionResult : Int → ChildWait
  future : Nat → Int
  defaultNumThreads : Int

/-- What a call of `__kmpc_fork_call` does: the thread state it leaves, the
messages passed to `sch.callFunction`, the ids passed to
`sch.getFunctionResult`, the arguments passed to `runThread`, each in call
order, and whether it returns or throws. -/
structure Fork where
  state : ThreadState
  scheduled : List Message
  waited : List Int
  submitted : List LocalThreadArgs
  outcome : Except Fault Unit

/-- The chained call built for thread `threadNum` (lines 285-297); the
arguments are added for `argIdx = argc - 1` down to 0. -/
def chainedCall (env : ForkEnv) (thisLevel : Level) (argc microtaskPtr nextNumThreads : Int)
    (threadNum : Nat) : Message :=
  { user := env.user,
    function := env.function,
    id := env.messageId threadNum,
    isAsync := true,
    ompFunctionArgs := (List.range argc.toNat).reverse.map env.nativeArgs,
    snapshotKey := "fork_" ++ toString (env.rand % 100000),
    snapshotSize := env.threadSnapshotSize,
    funcPtr := microtaskPtr,
    ompThreadNum := threadNum,
    ompNumThreads := nextNumThreads,
    lineage := thisLevel }

/-- The arguments built for the local member `threadNum` (lines 347-371): the
thread number, `argc`, then the pointers in guest order when `argc > 0`. -/
def localThread (env : ForkEnv) (nextLevel : Level) (argc microtaskPtr : Int)
    (threadNum : Nat) : LocalThreadArgs :=
  { tid := threadNum,
    level := nextLevel,
    func := microtaskPtr,
    funcArgs := [(threadNum : Int), argc] ++
      (if argc > 0 then (List.range argc.toNat).map env.nativeArgs else []) }

/-- The intrinsic `__kmpc_fork_call` (lines 242-391). The microtask is
looked up in the guest table by `microtaskPtr`; the next team size is read
and `pushedNumThreads` reset before the branch on the device; the loops run
for `threadNum = 0 .. nextNumThreads - 1`; `chainedThreads` holds the id of
the call of each thread number; the join is `forkJoin`. -/
def __kmpc_fork_call (env : ForkEnv) (s : ThreadState)
    (locPtr argc microtaskPtr argsPtr : Int) : Fork :=
  let nextNumThreads := get_next_level_num_threads env.defaultNumThreads s
  let s' := { s with pushedNumThreads := -1 }
  let threadNums := List.range nextNumThreads.toNat
  if 0 > s.thisLevel.userDefaultDevice then
    let calls := threadNums.map (chainedCall env s.thisLevel argc microtaskPtr nextNumThreads)
    let chainedThreads := calls.map (fun call => call.id)
    { state := s',
      scheduled := calls,
      waited := chainedThreads,
      submitted := [],
      outcome := forkJoin s.thisLevel.userDefaultDevice
        (chainedThreads.map env.getFunctionResult) [] }
  else
    let nextLevel := SingleHostLevel s.thisLevel nextNumThreads
    let members := threadNums.map (localThread env nextLevel argc microtaskPtr)
    { state := s',
      scheduled := [],
      waited := [],
      submitted := members,
      outcome := forkJoin s.thisLevel.userDefaultDevice []
        (threadNums.map env.future) }

/-- A chained call counts as failed: its result has a nonzero `returnValue`,
or the wait for it timed out or threw. -/
def childFailed : ChildWait → Bool
  | .result returnValue => returnValue ≠ 0
  | .timedOut => true
  | .exception => true

/-- The environment of the distributed scenario of the specification: the
children of thread numbers 0, 1, 2 get the ids 100, 101, 102 and return
0, 1, 0; the host default is a team of three and the guest passes pointers
at 1024, 1028, ... -/
def threeChildren : ForkEnv :=
  { user := "demo",
    function := "omp",
    rand := 12345,
    threadSnapshotSize := 65536,
    nativeArgs := fun i => 1024 + 4 * i,
    messageId := fun t => 100 + t,
    getFunctionResult := fun id => if id = 101 then .result 1 else .result 0,
    future := fun _ => 0,
    defaultNumThreads := 3 }

/-- The state of a thread at the outer level (depth 0, team of one, one
active level allowed, no thread count requested) with the given default
device. -/
def outerLevel (userDefaultDevice : Int) : ThreadState :=
  { thisThreadNumber := 0,
    thisLevel := { depth := 0, numThreads := 1, maxActiveLevel := 1,
                   userDefaultDevice := userDefaultDevice },
    wantedNumThreads := 0,
    pushedNumThreads := -1 }

/-! ## Lemmas on 32-bit arithmetic -/

theorem toSigned_32 (x : Int) :
    toSigned 32 x = (x + 2147483648) % 4294967296 - 2147483648 := by
  simp [toSigned]

theorem toUnsigned_32 (x : Int) : toUnsigned 32 x = x % 4294967296 := by
  simp [toUnsigned]

theorem inSigned_32 (x : Int) : InSigned 32 x ↔ -2147483648 ≤ x ∧ x < 2147483648 := by
  simp [InSigned]

theorem mulM_32 (a b : Int) : mulM 32 a b = (a * b) % 4294967296 := by
  simp only [mulM, toMixed, toUnsigned_32, le_refl, if_true]
  exact (Int.mul_emod a b 4294967296).symm

theorem addM_32 (a b : Int) : addM 32 a b = (a + b) % 4294967296 := by
  simp only [addM, toMixed, toUnsigned_32, le_refl, if_true]
  omega

theorem subM_32 (a b : Int) : subM 32 a b = (a - b) % 4294967296 := by
  simp only [subM, toMixed, toUnsigned_32, le_refl, if_true]
  omega

/-! ## Trip count -/

/-- Iteration count of a nonempty loop: the last index times the step stays
within the bound difference. -/
theorem iterations_spec (lower upper incr : Int) (hi : incr ≠ 0)
    (hp : 0 < incr → lower ≤ upper) (hm : incr < 0 → upper ≤ lower) :
    1 ≤ iterations lower upper incr ∧
    (0 < incr → incr * (iterations lower upper incr - 1) ≤ upper - lower ∧
      upper - lower < incr * iterations lower upper incr) ∧
    (incr < 0 → upper - lower ≤ incr * (iterations lower upper incr - 1) ∧
      incr * iterations lower upper incr < upper - lower) := by
  unfold iterations
  rcases lt_or_gt_of_ne hi with h | h
  · have h0 : ¬ (0 < incr) := by omega
    have hul := hm h
    have hpos : 0 < -incr := by omega
    have h1 := Int.mul_ediv_self_le (x := lower - upper) (k := -incr) (by omega)
    have h2 := Int.lt_mul_ediv_self_add (x := lower - upper) hpos
    have h3 : 0 ≤ (lower - upper) / (-incr) := Int.ediv_nonneg (by omega) (by omega)
    simp only [h0, h, hul, if_true, if_false]
    refine ⟨by omega, fun hc => hc.elim, fun _ => ?_⟩
    constructor
    · have : incr * ((lower - upper) / (-incr) + 1 - 1) = -(-incr * ((lower - upper) / (-incr))) := by
        ring
      omega
    · have : incr * ((lower - upper) / (-incr) + 1) = -(-incr * ((lower - upper) / (-incr))) + incr := by
        ring
      omega
  · have hlu := hp h
    have h1 := Int.mul_ediv_self_le (x := upper - lower) (k := incr) (by omega)
    have h2 := Int.lt_mul_ediv_self_add (x := upper - lower) h
    have h3 : 0 ≤ (upper - lower) / incr := Int.ediv_nonneg (by omega) (by omega)
    simp only [h, hlu, if_true]
    refine ⟨by omega, fun _ => ?_, fun hc => by omega⟩
    constructor
    · have : incr * ((upper - lower) / incr + 1 - 1) = incr * ((upper - lower) / incr) := by
        ring
      omega
    · have : incr * ((upper - lower) / incr + 1) = incr * ((upper - lower) / incr) + incr := by
        ring
      omega

/-- On a nonempty loop without overflow the 32-bit code computes the true
iteration count. -/
theorem tripCount_32_eq (lower upper incr : Int) (h : NonemptyLoop 32 lower upper incr) :
    tripCount 32 lower upper incr = .ok (iterations lower upper incr) := by
  obtain ⟨hlo, hup, hinc, hi, hp, hm, hd, hd', hn⟩ := h
  rw [inSigned_32] at hlo hup hinc hd hd' hn
  unfold tripCount
  by_cases h1 : incr = 1
  · subst h1
    have : iterations lower upper 1 = upper - lower + 1 := by
      simp [iterations, hp]
    rw [this] at hn ⊢
    simp only [if_true, addS, subS, toSigned_32, toUnsigned_32]
    congr 1
    omega
  by_cases h2 : incr = -1
  · subst h2
    have : iterations lower upper (-1) = lower - upper + 1 := by
      simp [iterations, hm]
    rw [this] at hn ⊢
    simp only [addS, subS, toSigned_32, toUnsigned_32]
    simp only [show ((-1 : Int) = 1) = False from by simp, if_false, if_true]
    congr 1
    omega
  by_cases h3 : 0 < incr
  · have hlu := hp h3
    have hq : Int.tdiv (upper - lower) incr = (upper - lower) / incr :=
      Int.tdiv_eq_ediv (by omega) (by omega)
    have hq0 : 0 ≤ (upper - lower) / incr := Int.ediv_nonneg (by omega) (by omega)
    have hq1 : (upper - lower) / incr ≤ upper - lower := Int.ediv_le_self _ (by omega)
    have hit : iterations lower upper incr = (upper - lower) / incr + 1 := by
      simp [iterations, h3, hlu]
    have e1 : toSigned 32 (subS 32 upper lower) = upper - lower := by
      simp only [subS, toSigned_32]
      omega
    simp only [h1, h2, h3, if_true, if_false, e1, addS, divS, hq, hit, toSigned_32, toUnsigned_32]
    congr 1
    omega
  · have hneg : incr < 0 := by omega
    have hul := hm hneg
    have e1 : toSigned 32 (subS 32 lower upper) = lower - upper := by
      simp only [subS, toSigned_32]
      omega
    have hit : iterations lower upper incr = (lower - upper) / (-incr) + 1 := by
      simp [iterations, h3, hneg, hul]
    by_cases hmin : incr = -2147483648
    · subst hmin
      have e0 : negS 32 (-2147483648) = -2147483648 := by decide
      have hq : Int.tdiv (lower - upper) (-2147483648) = 0 := by
        rw [Int.tdiv_neg, Int.tdiv_eq_zero_of_lt (by omega) (by omega)]
        rfl
      have hq' : (lower - upper) / (-(-2147483648)) = 0 :=
        Int.ediv_eq_zero_of_lt (by omega) (by omega)
      rw [hit, hq']
      simp only [h1, h2, h3, if_false, e0, e1, addS, divS, hq]
      decide
    · have e0 : negS 32 incr = -incr := by
        simp only [negS, toSigned_32]
        omega
      have hq : Int.tdiv (lower - upper) (-incr) = (lower - upper) / (-incr) :=
        Int.tdiv_eq_ediv (by omega) (by omega)
      have hq0 : 0 ≤ (lower - upper) / (-incr) := Int.ediv_nonneg (by omega) (by omega)
      have hq1 : (lower - upper) / (-incr) ≤ lower - upper := Int.ediv_le_self _ (by omega)
      have hz : ¬ (-incr = 0) := by omega
      simp only [h1, h2, h3, if_false, e0, e1, hz, addS, divS, hq, hit, toSigned_32,
        toUnsigned_32]
      congr 1
      omega

/-! ## Static schedule: balanced partition -/

/-- Multiples of the step by an iteration index stay within the bounds. -/
theorem step_mul_bounds (lower upper incr j : Int) (hi : incr ≠ 0)
    (hp : 0 < incr → lower ≤ upper) (hm : incr < 0 → upper ≤ lower)
    (hj0 : 0 ≤ j) (hj : j ≤ iterations lower upper incr - 1) :
    (0 < incr → 0 ≤ incr * j ∧ incr * j ≤ upper - lower) ∧
    (incr < 0 → upper - lower ≤ incr * j ∧ incr * j ≤ 0) := by
  obtain ⟨_, h2, h3⟩ := iterations_spec lower upper incr hi hp hm
  constructor
  · intro h
    have a := (h2 h).1
    have b : incr * j ≤ incr * (iterations lower upper incr - 1) :=
      Int.mul_le_mul_of_nonneg_left hj (by omega)
    have c : 0 ≤ incr * j := Int.mul_nonneg (by omega) hj0
    omega
  · intro h
    have a := (h3 h).1
    have b : (-incr) * j ≤ (-incr) * (iterations lower upper incr - 1) :=
      Int.mul_le_mul_of_nonneg_left hj (by omega)
    have c : 0 ≤ (-incr) * j := Int.mul_nonneg (by omega) hj0
    rw [Int.neg_mul, Int.neg_mul] at b
    rw [Int.neg_mul] at c
    omega

/-- Quotient and remainder of the iteration count by the team size. -/
theorem chunk_facts (tc n t : Int) (hn : 2 ≤ n) (htc : n ≤ tc) (ht0 : 0 ≤ t) (ht : t < n) :
    1 ≤ tc / n ∧ 0 ≤ tc % n ∧ tc % n < n ∧ n * (tc / n) + tc % n = tc ∧
    0 ≤ t * (tc / n) ∧ t * (tc / n) + tc / n ≤ n * (tc / n) := by
  have h1 : 1 ≤ tc / n := (Int.le_ediv_iff_mul_le (by omega)).2 (by omega)
  have h2 := Int.emod_nonneg tc (b := n) (by omega)
  have h3 := Int.emod_lt_of_pos tc (b := n) (by omega)
  have h4 := Int.ediv_add_emod tc n
  have h5 : 0 ≤ t * (tc / n) := Int.mul_nonneg ht0 (by omega)
  have h6 : (t + 1) * (tc / n) ≤ n * (tc / n) :=
    Int.mul_le_mul_of_nonneg_right (by omega) (by omega)
  have h7 : (t + 1) * (tc / n) = t * (tc / n) + tc / n := by ring
  exact ⟨h1, h2, h3, h4, h5, by omega⟩

/-- Closed form of the balanced static schedule on 32-bit loops. -/
theorem staticBalanced_32_eq (n t lower upper incr li st : Int)
    (hl : NonemptyLoop 32 lower upper incr) (hn : 2 ≤ n) (hn32 : InSigned 32 n)
    (ht0 : 0 ≤ t) (ht : t < n) (htc : n ≤ iterations lower upper incr) :
    staticBalanced 32 n t (iterations lower upper incr) ⟨li, lower, upper, st⟩ incr =
      .ok { lastIter := if t = n - 1 then 1 else 0,
            lower := lower + incr * (t * (iterations lower upper incr / n) +
              min t (iterations lower upper incr % n)),
            upper := lower + incr * (t * (iterations lower upper incr / n) +
              min t (iterations lower upper incr % n)) + incr * (iterations lower upper incr / n) -
              (if t < iterations lower upper incr % n then 0 else incr),
            stride := iterations lower upper incr } := by
  obtain ⟨hlo, hup, hinc, hi, hp, hm, hd, hd', hfit⟩ := hl
  rw [inSigned_32] at hlo hup hinc hd hd' hfit hn32
  generalize htcdef : iterations lower upper incr = tc at *
  obtain ⟨hsc, hex0, hex, hdiv, hp0, hp1⟩ := chunk_facts tc n t hn htc ht0 ht
  generalize hscdef : tc / n = sc at *
  generalize hexdef : tc % n = ex at *
  generalize hpdef : t * sc = p at *
  have hq : n * sc = tc - ex := by omega
  rw [hq] at hp1
  have hnU : toUnsigned 32 n = n := by rw [toUnsigned_32]; omega
  have htU : toUnsigned 32 t = t := by rw [toUnsigned_32]; omega
  have hscU : toUnsigned 32 sc = sc := by rw [toUnsigned_32]; omega
  have hexU : toUnsigned 32 ex = ex := by rw [toUnsigned_32]; omega
  have hoff : addU 32 (mulU 32 t sc) (if t < ex then t else ex) = p + min t ex := by
    simp only [addU, mulU, toUnsigned_32, hpdef]
    split <;> omega
  -- bounds of the first and last index of this thread
  have hk0 : 0 ≤ p + min t ex := by omega
  have hk1 : p + min t ex ≤ tc - 1 := by omega
  have b1 := step_mul_bounds lower upper incr (p + min t ex) hi hp hm hk0 (by rw [htcdef]; exact hk1)
  have hlast0 : 0 ≤ p + min t ex + sc - (if t < ex then 0 else 1) := by split <;> omega
  have hlast1 : p + min t ex + sc - (if t < ex then 0 else 1) ≤ tc - 1 := by split <;> omega
  have b2 := step_mul_bounds lower upper incr _ hi hp hm hlast0 (by rw [htcdef]; exact hlast1)
  have e2 : incr * (p + min t ex + sc - (if t < ex then 0 else 1)) =
      incr * (p + min t ex) + incr * sc - (if t < ex then 0 else incr) := by
    split <;> ring
  rw [e2] at b2
  have e3 : sc * incr = incr * sc := by ring
  generalize hmdef : incr * (p + min t ex) = m at *
  generalize hm2def : incr * sc = m2 at *
  unfold staticBalanced
  have hnot : ¬ (tc < n) := by omega
  have hn0 : ¬ (n = 0) := by omega
  simp only [hnU, hnot, hn0, if_false, htU, hscdef, hexdef, hscU, hexU, hoff, mulM_32, addM_32,
    subM_32, hmdef, e3, hm2def, subS, toSigned_32]
  have hstr : (tc + 2147483648) % 4294967296 - 2147483648 = tc := by omega
  have hlw : ((lower + m % 4294967296) % 4294967296 + 2147483648) % 4294967296 - 2147483648 =
      lower + m := by
    rcases lt_or_gt_of_ne hi with h | h
    · have := b1.2 h
      omega
    · have := b1.1 h
      omega
  have hli : (n - 1 + 2147483648) % 4294967296 - 2147483648 = n - 1 := by omega
  rw [hstr, hlw, hli]
  have huw : (((lower + m + m2 % 4294967296) % 4294967296 - if t < ex then 0 else incr) %
      4294967296 + 2147483648) % 4294967296 - 2147483648 =
      lower + m + m2 - (if t < ex then 0 else incr) := by
    rcases lt_or_gt_of_ne hi with h | h
    · have := b2.2 h
      split <;> split at this <;> omega
    · have := b2.1 h
      split <;> split at this <;> omega
  rw [huw]

/-- A range of `c ≥ 1` steps has `c` iterations. -/
theorem iterations_of_steps (lo incr c : Int) (hi : incr ≠ 0) (hc : 1 ≤ c) :
    iterations lo (lo + incr * (c - 1)) incr = c := by
  unfold iterations
  rcases lt_or_gt_of_ne hi with h | h
  · have h0 : ¬ (0 < incr) := by omega
    have h1 : 0 ≤ (-incr) * (c - 1) := Int.mul_nonneg (by omega) (by omega)
    rw [Int.neg_mul] at h1
    have h2 : lo + incr * (c - 1) ≤ lo := by omega
    have h3 : lo - (lo + incr * (c - 1)) = -incr * (c - 1) := by ring
    simp only [h0, h, h2, if_true, if_false, h3]
    rw [Int.mul_ediv_cancel_left _ (by omega)]
    omega
  · have h1 : 0 ≤ incr * (c - 1) := Int.mul_nonneg (by omega) (by omega)
    have h2 : lo ≤ lo + incr * (c - 1) := by omega
    have h3 : lo + incr * (c - 1) - lo = incr * (c - 1) := by ring
    simp only [h, h2, if_true, h3]
    rw [Int.mul_ediv_cancel_left _ (by omega)]
    omega

/-- With a team of at least two threads the static schedule of a nonempty
32-bit loop is the balanced or the short-loop partition of its true
iteration count. -/
theorem for_static_init_32_static (n t lower upper incr chunk li st : Int)
    (hl : NonemptyLoop 32 lower upper incr) (hn : 2 ≤ n) :
    __kmpc_for_static_init_4 n t kmp.sch_static ⟨li, lower, upper, st⟩ incr chunk =
      staticBalanced 32 n t (iterations lower upper incr) ⟨li, lower, upper, st⟩ incr := by
  have h1 : ¬ (n = 1) := by omega
  simp only [__kmpc_for_static_init_4, for_static_init, h1, if_false,
    tripCount_32_eq lower upper incr hl]
  simp [kmp.sch_static, kmp.sch_static_chunked]

/-- C1. Static schedule, balanced case: for schedule `static` (34), a team of
`n ≥ 2` threads and a 32-bit loop without overflow whose iteration count `tc`
is at least `n`, with `sc = tc / n` and `ex = tc mod n`, thread `t` receives
`lower' = lower + incr * (t * sc + min t ex)`,
`upper' = lower' + incr * sc - (if t < ex then 0 else incr)` and `stride' = tc`;
it gets `sc + 1` iterations if `t < ex` and `sc` otherwise, thread 0 starts at
`lower`, thread `t + 1` starts at thread `t`'s `upper' + incr`, and thread
`n - 1` ends at the final iteration `lower + incr * (tc - 1)`. -/
theorem static_balanced_case (n lower upper incr chunk li st : Int)
    (hl : NonemptyLoop 32 lower upper incr) (hn : 2 ≤ n) (hn32 : InSigned 32 n)
    (htc : n ≤ iterations lower upper incr) (t : Int) (ht0 : 0 ≤ t) (ht : t < n) :
    ∃ r, __kmpc_for_static_init_4 n t kmp.sch_static ⟨li, lower, upper, st⟩ incr chunk = .ok r ∧
      r.lower = lower + incr * (t * (iterations lower upper incr / n) +
        min t (iterations lower upper incr % n)) ∧
      r.upper = r.lower + incr * (iterations lower upper incr / n) -
        (if t < iterations lower upper incr % n then 0 else incr) ∧
      r.stride = iterations lower upper incr ∧
      iterations r.lower r.upper incr =
        (if t < iterations lower upper incr % n then iterations lower upper incr / n + 1
         else iterations lower upper incr / n) ∧
      (t = 0 → r.lower = lower) ∧
      (t = n - 1 → r.upper = lower + incr * (iterations lower upper incr - 1)) ∧
      (∀ r', t + 1 < n →
        __kmpc_for_static_init_4 n (t + 1) kmp.sch_static ⟨li, lower, upper, st⟩ incr chunk
          = .ok r' → r'.lower = r.upper + incr) := by
  have hi : incr ≠ 0 := hl.2.2.2.1
  obtain ⟨hsc, hex0, hex, hdiv, -, -⟩ :=
    chunk_facts (iterations lower upper incr) n t hn htc ht0 ht
  refine ⟨_, (for_static_init_32_static n t lower upper incr chunk li st hl hn).trans
    (staticBalanced_32_eq n t lower upper incr li st hl hn hn32 ht0 ht htc), rfl, rfl, rfl,
    ?_, ?_, ?_, ?_⟩
  · -- number of iterations of thread `t`
    simp only
    generalize iterations lower upper incr / n = sc at *
    generalize iterations lower upper incr % n = ex at *
    generalize lower + incr * (t * sc + min t ex) = lo
    split
    · have := iterations_of_steps lo incr (sc + 1) hi (by omega)
      simpa using this
    · have := iterations_of_steps lo incr sc hi (by omega)
      have e : lo + incr * sc - incr = lo + incr * (sc - 1) := by ring
      rw [e]
      exact this
  · intro h0
    subst h0
    have : min 0 (iterations lower upper incr % n) = 0 := by omega
    simp [this]
  · intro hlast
    subst hlast
    have h1 : ¬ (n - 1 < iterations lower upper incr % n) := by omega
    have h2 : min (n - 1) (iterations lower upper incr % n) = iterations lower upper incr % n := by
      omega
    simp only [h1, if_false, h2]
    linear_combination incr * hdiv
  · intro r' hlt hr'
    rw [(for_static_init_32_static n (t + 1) lower upper incr chunk li st hl hn).trans
      (staticBalanced_32_eq n (t + 1) lower upper incr li st hl hn hn32 (by omega) hlt htc)] at hr'
    cases hr'
    simp only
    generalize iterations lower upper incr / n = sc at *
    generalize iterations lower upper incr % n = ex at *
    by_cases hte : t < ex
    · have e1 : min (t + 1) ex = t + 1 := by omega
      have e2 : min t ex = t := by omega
      simp only [hte, if_true, e1, e2]
      ring
    · have e1 : min (t + 1) ex = ex := by omega
      have e2 : min t ex = ex := by omega
      simp only [hte, if_false, e1, e2]
      ring

/-- C1 at the uneven scenario of the specification: `lower = 0`, `upper = 10`,
`incr = 1`, four threads, thread 2. -/
theorem static_balanced_case_witness :
    ∃ r, __kmpc_for_static_init_4 4 2 kmp.sch_static ⟨0, 0, 10, 0⟩ 1 0 = .ok r ∧
      r.lower = 0 + 1 * (2 * (iterations 0 10 1 / 4) + min 2 (iterations 0 10 1 % 4)) ∧
      r.upper = r.lower + 1 * (iterations 0 10 1 / 4) -
        (if 2 < iterations 0 10 1 % 4 then 0 else 1) ∧
      r.stride = iterations 0 10 1 ∧
      iterations r.lower r.upper 1 =
        (if 2 < iterations 0 10 1 % 4 then iterations 0 10 1 / 4 + 1
         else iterations 0 10 1 / 4) ∧
      ((2 : Int) = 0 → r.lower = 0) ∧
      ((2 : Int) = 4 - 1 → r.upper = 0 + 1 * (iterations 0 10 1 - 1)) ∧
      (∀ r', (2 : Int) + 1 < 4 →
        __kmpc_for_static_init_4 4 (2 + 1) kmp.sch_static ⟨0, 0, 10, 0⟩ 1 0
          = .ok r' → r'.lower = r.upper + 1) :=
  static_balanced_case 4 0 10 1 0 0 0 (by decide) (by decide) (by decide) (by decide) 2
    (by decide) (by decide)

/-! ## Static schedule: fewer iterations than threads -/

/-- Closed form of the static schedule on a 32-bit loop with fewer iterations
than threads. -/
theorem staticShort_32_eq (n t lower upper incr li st : Int)
    (hl : NonemptyLoop 32 lower upper incr) (hn32 : InSigned 32 n)
    (htc : iterations lower upper incr < n) (ht0 : 0 ≤ t) (ht : t < n) :
    staticBalanced 32 n t (iterations lower upper incr) ⟨li, lower, upper, st⟩ incr =
      .ok { lastIter := if t = iterations lower upper incr - 1 then 1 else 0,
            lower := if t < iterations lower upper incr then lower + t * incr
                     else addS 32 upper incr,
            upper := if t < iterations lower upper incr then lower + t * incr else upper,
            stride := iterations lower upper incr } := by
  obtain ⟨hlo, hup, hinc, hi, hp, hm, hd, hd', hfit⟩ := hl
  have h1 := (iterations_spec lower upper incr hi hp hm).1
  rw [inSigned_32] at hlo hup hinc hd hd' hfit hn32
  have hnU : toUnsigned 32 n = n := by rw [toUnsigned_32]; omega
  have htU : toUnsigned 32 t = t := by rw [toUnsigned_32]; omega
  have hstr : toSigned 32 (iterations lower upper incr) = iterations lower upper incr := by
    rw [toSigned_32]; omega
  have hsub : subU 32 (iterations lower upper incr) 1 = iterations lower upper incr - 1 := by
    rw [subU, toUnsigned_32]; omega
  unfold staticBalanced
  simp only [hnU, htU, htc, if_true, hstr, hsub]
  by_cases hlt : t < iterations lower upper incr
  · have b := step_mul_bounds lower upper incr t hi hp hm ht0 (by omega)
    have e : incr * t = t * incr := by ring
    rw [e] at b
    have hlw : addS 32 lower (mulS 32 t incr) = lower + t * incr := by
      simp only [addS, mulS, toSigned_32]
      generalize t * incr = m at *
      rcases lt_or_gt_of_ne hi with h | h
      · have := b.2 h
        omega
      · have := b.1 h
        omega
    simp only [hlt, if_true, hlw]
  · simp only [hlt, if_false]

theorem toSigned_64 (x : Int) :
    toSigned 64 x = (x + 9223372036854775808) % 18446744073709551616 - 9223372036854775808 := by
  simp [toSigned]

theorem inSigned_64 (x : Int) :
    InSigned 64 x ↔ -9223372036854775808 ≤ x ∧ x < 9223372036854775808 := by
  simp [InSigned]

/-- C6. Single-thread fast path: with a team of one thread, for every
schedule, bounds, chunk and increment, both widths of `for_static_init` leave
`lower` and `upper` unchanged, set `lastIter = 1` and set `stride` to
`upper - lower + 1` if `incr > 0` and to `-(lower - upper + 1)` otherwise,
evaluated in the loop index type (hence exactly that integer whenever it is
representable). -/
theorem single_thread_fast_path (t schedule lower upper incr chunk li st : Int) :
    ∃ r4 r8,
      __kmpc_for_static_init_4 1 t schedule ⟨li, lower, upper, st⟩ incr chunk = .ok r4 ∧
      __kmpc_for_static_init_8 1 t schedule ⟨li, lower, upper, st⟩ incr chunk = .ok r8 ∧
      r4.lower = lower ∧ r4.upper = upper ∧ r4.lastIter = 1 ∧
      r8.lower = lower ∧ r8.upper = upper ∧ r8.lastIter = 1 ∧
      r4.stride = toSigned 32 (if 0 < incr then upper - lower + 1 else -(lower - upper + 1)) ∧
      r8.stride = toSigned 64 (if 0 < incr then upper - lower + 1 else -(lower - upper + 1)) ∧
      (InSigned 32 (if 0 < incr then upper - lower + 1 else -(lower - upper + 1)) →
        r4.stride = if 0 < incr then upper - lower + 1 else -(lower - upper + 1)) ∧
      (InSigned 64 (if 0 < incr then upper - lower + 1 else -(lower - upper + 1)) →
        r8.stride = if 0 < incr then upper - lower + 1 else -(lower - upper + 1)) := by
  have e4 : (if 0 < incr then addS 32 (subS 32 upper lower) 1
      else negS 32 (addS 32 (subS 32 lower upper) 1)) =
      toSigned 32 (if 0 < incr then upper - lower + 1 else -(lower - upper + 1)) := by
    simp only [addS, subS, negS, toSigned_32]
    split <;> omega
  have e8 : (if 0 < incr then addS 64 (subS 64 upper lower) 1
      else negS 64 (addS 64 (subS 64 lower upper) 1)) =
      toSigned 64 (if 0 < incr then upper - lower + 1 else -(lower - upper + 1)) := by
    simp only [addS, subS, negS, toSigned_64]
    split <;> omega
  refine ⟨⟨1, lower, upper, if 0 < incr then addS 32 (subS 32 upper lower) 1
      else negS 32 (addS 32 (subS 32 lower upper) 1)⟩,
    ⟨1, lower, upper, if 0 < incr then addS 64 (subS 64 upper lower) 1
      else negS 64 (addS 64 (subS 64 lower upper) 1)⟩,
    ?_, ?_, rfl, rfl, rfl, rfl, rfl, rfl, e4, e8, ?_, ?_⟩
  · simp [__kmpc_for_static_init_4, for_static_init]
  · simp [__kmpc_for_static_init_8, for_static_init]
  · intro h
    rw [inSigned_32] at h
    simp only [e4, toSigned_32]
    omega
  · intro h
    rw [inSigned_64] at h
    simp only [e8, toSigned_64]
    omega

/-- C6 on the loop `0 .. 9` with `incr = 1`, schedule 34. -/
theorem single_thread_fast_path_witness :
    ∃ r4 r8,
      __kmpc_for_static_init_4 1 0 34 ⟨0, 0, 9, 0⟩ 1 0 = .ok r4 ∧
      __kmpc_for_static_init_8 1 0 34 ⟨0, 0, 9, 0⟩ 1 0 = .ok r8 ∧
      r4.lower = 0 ∧ r4.upper = 9 ∧ r4.lastIter = 1 ∧
      r8.lower = 0 ∧ r8.upper = 9 ∧ r8.lastIter = 1 ∧
      r4.stride = toSigned 32 (if (0 : Int) < 1 then 9 - 0 + 1 else -(0 - 9 + 1)) ∧
      r8.stride = toSigned 64 (if (0 : Int) < 1 then 9 - 0 + 1 else -(0 - 9 + 1)) ∧
      (InSigned 32 (if (0 : Int) < 1 then 9 - 0 + 1 else -(0 - 9 + 1)) →
        r4.stride = if (0 : Int) < 1 then 9 - 0 + 1 else -(0 - 9 + 1)) ∧
      (InSigned 64 (if (0 : Int) < 1 then 9 - 0 + 1 else -(0 - 9 + 1)) →
        r8.stride = if (0 : Int) < 1 then 9 - 0 + 1 else -(0 - 9 + 1)) :=
  single_thread_fast_path 0 34 0 9 1 0 0 0

/-- The trip count is computed without fault for every nonzero increment. -/
theorem tripCount_ok (w : Nat) (hw : w = 32 ∨ w = 64) (lower upper incr : Int)
    (hi : incr ≠ 0) (hr : InSigned w incr) :
    ∃ tc, tripCount w lower upper incr = .ok tc := by
  unfold tripCount
  by_cases h1 : incr = 1
  · exact ⟨_, if_pos h1⟩
  by_cases h2 : incr = -1
  · exact ⟨_, (if_neg h1).trans (if_pos h2)⟩
  by_cases h3 : 0 < incr
  · exact ⟨_, (if_neg h1).trans ((if_neg h2).trans (if_pos h3))⟩
  have hz : ¬ (negS w incr = 0) := by
    rcases hw with rfl | rfl
    · rw [inSigned_32] at hr
      simp only [negS, toSigned_32]
      omega
    · rw [inSigned_64] at hr
      simp only [negS, toSigned_64]
      omega
  exact ⟨_, (if_neg h1).trans ((if_neg h2).trans ((if_neg h3).trans (if_neg hz)))⟩

/-- C7, as amended. For every schedule value other than `static_chunked` (33)
and `static` (34), every team size other than 1, every thread number, bounds
and chunk and every nonzero increment of the loop index type,
`__kmpc_for_static_init_4` and `__kmpc_for_static_init_8` fail with the
unimplemented-scheduler error instead of returning normally; with a team of
one thread they return normally for these schedules as well. -/
theorem unimplemented_schedule (n t schedule lower upper incr chunk li st : Int)
    (hn : n ≠ 1) (h33 : schedule ≠ 33) (h34 : schedule ≠ 34) (hi : incr ≠ 0) :
    (InSigned 32 incr →
      __kmpc_for_static_init_4 n t schedule ⟨li, lower, upper, st⟩ incr chunk =
        .error (.unimplementedScheduler schedule)) ∧
    (InSigned 64 incr →
      __kmpc_for_static_init_8 n t schedule ⟨li, lower, upper, st⟩ incr chunk =
        .error (.unimplementedScheduler schedule)) ∧
    (∃ r4 r8,
      __kmpc_for_static_init_4 1 t schedule ⟨li, lower, upper, st⟩ incr chunk = .ok r4 ∧
      __kmpc_for_static_init_8 1 t schedule ⟨li, lower, upper, st⟩ incr chunk = .ok r8) := by
  refine ⟨?_, ?_, ⟨_, _, (if_pos rfl : for_static_init 32 1 t schedule _ incr chunk = _),
    (if_pos rfl : for_static_init 64 1 t schedule _ incr chunk = _)⟩⟩
  · intro hr
    obtain ⟨tc, htc⟩ := tripCount_ok 32 (Or.inl rfl) lower upper incr hi hr
    simp [__kmpc_for_static_init_4, for_static_init, hn, htc, kmp.sch_static,
      kmp.sch_static_chunked, h33, h34]
  · intro hr
    obtain ⟨tc, htc⟩ := tripCount_ok 64 (Or.inr rfl) lower upper incr hi hr
    simp [__kmpc_for_static_init_8, for_static_init, hn, htc, kmp.sch_static,
      kmp.sch_static_chunked, h33, h34]

/-- C7 as amended, on schedule 35 with two threads and the loop `0 .. 9`. -/
theorem unimplemented_schedule_witness :
    (InSigned 32 1 →
      __kmpc_for_static_init_4 2 0 35 ⟨0, 0, 9, 0⟩ 1 0 = .error (.unimplementedScheduler 35)) ∧
    (InSigned 64 1 →
      __kmpc_for_static_init_8 2 0 35 ⟨0, 0, 9, 0⟩ 1 0 = .error (.unimplementedScheduler 35)) ∧
    (∃ r4 r8,
      __kmpc_for_static_init_4 1 0 35 ⟨0, 0, 9, 0⟩ 1 0 = .ok r4 ∧
      __kmpc_for_static_init_8 1 0 35 ⟨0, 0, 9, 0⟩ 1 0 = .ok r8) :=
  unimplemented_schedule 2 0 35 0 9 1 0 0 0 (by decide) (by decide) (by decide) (by decide)

/-- C7 as stated fails: with a team of one thread the unsupported schedule 35
returns normally (the single-thread fast path comes before the dispatch on the
schedule), in both widths. -/
theorem unimplemented_schedule_single_thread :
    __kmpc_for_static_init_4 1 0 35 ⟨0, 0, 9, 0⟩ 1 0 = .ok ⟨1, 0, 9, 10⟩ ∧
    __kmpc_for_static_init_8 1 0 35 ⟨0, 0, 9, 0⟩ 1 0 = .ok ⟨1, 0, 9, 10⟩ ∧
    __kmpc_for_static_init_4 1 0 35 ⟨0, 0, 9, 0⟩ 1 0 ≠ .error (.unimplementedScheduler 35) ∧
    __kmpc_for_static_init_8 1 0 35 ⟨0, 0, 9, 0⟩ 1 0 ≠ .error (.unimplementedScheduler 35) := by
  decide

/-- C8. The 32-bit trip count with a non-unit increment is wrong when
`upper - lower` does not fit in a signed 32-bit integer: for
`lower = -2000000000`, `upper = 2000000000`, `incr = 2`, static schedule and
two threads the loop has 2000000001 iterations (a value representable in
`I32`), yet the trip count is computed as 4147483649 and `-147483647` is
written to `*stride`. -/
theorem trip_count_numerator_overflow :
    iterations (-2000000000) 2000000000 2 = 2000000001 ∧
    InSigned 32 (iterations (-2000000000) 2000000000 2) ∧
    tripCount 32 (-2000000000) 2000000000 2 = .ok 4147483649 ∧
    __kmpc_for_static_init_4 2 0 kmp.sch_static ⟨0, -2000000000, 2000000000, 0⟩ 2 0 =
      .ok ⟨0, -2000000000, -2147483648, -147483647⟩ ∧
    __kmpc_for_static_init_4 2 1 kmp.sch_static ⟨0, -2000000000, 2000000000, 0⟩ 2 0 =
      .ok ⟨1, -2147483646, 2000000000, -147483647⟩ := by
  decide

/-- C10. The single-host join adds up the members' return values instead of
counting the members that returned a nonzero value: two members returning 1
and -1 make the fork return normally, and one member returning 2 is reported
as two failed threads. -/
theorem local_join_sums_codes :
    forkJoin 0 [] [1, -1] = .ok () ∧
    forkJoin 0 [] [2] = .error (.teamExecutionFailed 2) ∧
    forkJoin 0 [] [0, 3, 0] = .error (.teamExecutionFailed 3) := by
  decide

/-- C9. The 64-bit variant narrows intermediate values to 32 bits.
Static schedule, two threads, loop `0 .. 2^33 - 1` by 1: `small_chunk` is a
`U32`, so `2^32` becomes 0 and thread 0 receives `upper' = -1` where the
partition evaluated in 64 bits gives `2^32 - 1`. Loop `0 .. 2^32` by 2: the
`(int)` cast of `upper - lower` gives a trip count of 1 where the loop has
`2^31 + 1` iterations. Static-chunked schedule with `chunk = 2^32 + 1` and
`incr = 1`, thread 1: `span` is an `int` and the chunk is cast to
`unsigned int`, so the thread receives `(1, 1)` with stride 2 where 64-bit
arithmetic gives `lower' = 2^32 + 1` and stride `2^33 + 2`. -/
theorem static_init_8_narrows_to_32_bits :
    __kmpc_for_static_init_8 2 0 kmp.sch_static ⟨0, 0, 8589934591, 0⟩ 1 0 =
      .ok ⟨0, 0, -1, 8589934592⟩ ∧
    iterations 0 8589934591 1 = 8589934592 ∧
    (0 : Int) + 1 * (0 * (8589934592 / 2) + min 0 (8589934592 % 2)) + 1 * (8589934592 / 2) -
      (if (0 : Int) < 8589934592 % 2 then 0 else 1) = 4294967295 ∧
    tripCount 64 0 4294967296 2 = .ok 1 ∧
    iterations 0 4294967296 2 = 2147483649 ∧
    __kmpc_for_static_init_8 2 1 kmp.sch_static_chunked ⟨0, 0, 17179869183, 0⟩ 1 4294967297 =
      .ok ⟨1, 1, 1, 2⟩ ∧
    (0 : Int) + 4294967297 * 1 * 1 = 4294967297 ∧ (4294967297 : Int) * 1 * 2 = 8589934594 := by
  decide

/-! ## Static-chunked schedule -/

/-- Multiples of the span `s = chunk * incr` by thread numbers: `s` lies beyond
`incr`, and `s * t`, `s * t + s` lie between 0 and `s * n`. -/
theorem span_facts (c incr n t : Int) (hc : 1 ≤ c) (ht0 : 0 ≤ t) (ht : t < n) :
    (0 < incr → incr ≤ c * incr ∧ 0 ≤ c * incr * t ∧ c * incr * t + c * incr ≤ c * incr * n) ∧
    (incr < 0 → c * incr ≤ incr ∧ c * incr * t ≤ 0 ∧ c * incr * n ≤ c * incr * t + c * incr) := by
  have e1 : c * incr = incr + (c - 1) * incr := by ring
  have e2 : c * incr * n = c * incr * t + c * incr + c * incr * (n - t - 1) := by ring
  constructor
  · intro h
    have a1 : 0 ≤ (c - 1) * incr := Int.mul_nonneg (by omega) (by omega)
    have a2 : 0 ≤ c * incr := by omega
    have a3 : 0 ≤ c * incr * t := Int.mul_nonneg a2 ht0
    have a4 : 0 ≤ c * incr * (n - t - 1) := Int.mul_nonneg a2 (by omega)
    omega
  · intro h
    have a1 : 0 ≤ (c - 1) * (-incr) := Int.mul_nonneg (by omega) (by omega)
    have a1' : (c - 1) * (-incr) = -((c - 1) * incr) := by ring
    have a2 : 0 ≤ -(c * incr) := by omega
    have a3 : 0 ≤ -(c * incr) * t := Int.mul_nonneg a2 ht0
    have a3' : -(c * incr) * t = -(c * incr * t) := by ring
    have a4 : 0 ≤ -(c * incr) * (n - t - 1) := Int.mul_nonneg a2 (by omega)
    have a4' : -(c * incr) * (n - t - 1) = -(c * incr * (n - t - 1)) := by ring
    omega

/-- Closed form of the static-chunked schedule on 32-bit values, `c` being the
chunk clamped to at least 1 and `tc` an unsigned 32-bit trip count. -/
theorem staticChunked_32_eq (n t tc lower upper incr chunk li st : Int)
    (hlo : InSigned 32 lower) (hinc : InSigned 32 incr) (hi : incr ≠ 0)
    (hch : InSigned 32 chunk) (hn32 : InSigned 32 n) (ht0 : 0 ≤ t) (ht : t < n)
    (hf1 : InSigned 32 ((if chunk < 1 then 1 else chunk) * incr * n))
    (hf2 : InSigned 32 (lower + (if chunk < 1 then 1 else chunk) * incr * n)) :
    staticChunked 32 n t tc ⟨li, lower, upper, st⟩ incr chunk =
      .ok { lastIter := if t = (subU 32 tc 1 / (if chunk < 1 then 1 else chunk)) % n then 1 else 0,
            lower := lower + (if chunk < 1 then 1 else chunk) * incr * t,
            upper := lower + (if chunk < 1 then 1 else chunk) * incr * t +
              (if chunk < 1 then 1 else chunk) * incr - incr,
            stride := (if chunk < 1 then 1 else chunk) * incr * n } := by
  generalize hcdef : (if chunk < 1 then 1 else chunk) = c at *
  have hc1 : 1 ≤ c := by rw [← hcdef]; split <;> omega
  rw [inSigned_32] at hlo hinc hch hn32 hf1 hf2
  have hc2 : c < 2147483648 := by rw [← hcdef]; split <;> omega
  obtain ⟨fp, fm⟩ := span_facts c incr n t hc1 ht0 ht
  have hnU : toUnsigned 32 n = n := by rw [toUnsigned_32]; omega
  have htU : toUnsigned 32 t = t := by rw [toUnsigned_32]; omega
  have hcU : toUnsigned 32 c = c := by rw [toUnsigned_32]; omega
  generalize hsdef : c * incr = s at *
  generalize hstdef : s * t = m at *
  generalize hsndef : s * n = S at *
  have rng : -2147483648 ≤ s ∧ s < 2147483648 ∧ -2147483648 ≤ m ∧ m < 2147483648 ∧
      -2147483648 ≤ lower + m ∧ lower + m < 2147483648 ∧
      -2147483648 ≤ lower + m + s ∧ lower + m + s < 2147483648 ∧
      -2147483648 ≤ lower + m + s - incr ∧ lower + m + s - incr < 2147483648 := by
    rcases lt_or_gt_of_ne hi with h | h
    · have := fm h
      omega
    · have := fp h
      omega
  have hs1 : toSigned 32 s = s := by rw [toSigned_32]; omega
  have hm1 : toSigned 32 m = m := by rw [toSigned_32]; omega
  have hS1 : toSigned 32 S = S := by rw [toSigned_32]; omega
  have hL1 : toSigned 32 (lower + m) = lower + m := by rw [toSigned_32]; omega
  have hU1 : toSigned 32 (lower + m + s) = lower + m + s := by rw [toSigned_32]; omega
  have hU2 : toSigned 32 (lower + m + s - incr) = lower + m + s - incr := by
    rw [toSigned_32]; omega
  have hc0 : ¬ (c = 0) := by omega
  have hn0 : ¬ (n = 0) := by omega
  simp only [staticChunked, hcdef, hnU, htU, hcU, mulS, addS, subS, hsdef, hs1, hstdef, hsndef,
    hm1, hS1, hL1, hU1, hU2, hc0, hn0, if_false]

/-- C5. Static-chunked schedule: for schedule `static_chunked` (33), a team of
`n ≥ 2` threads, thread `t`, a nonzero increment and any chunk (values below 1
are treated as 1), with `span = chunk * incr` and no 32-bit overflow of
`span * n` and `lower + span * n`, `__kmpc_for_static_init_4` writes
`stride' = span * n`, `lower' = lower + span * t`,
`upper' = lower' + span - incr`, and `lastIter = 1` iff
`t = ((tripCount - 1) / chunk) mod n`, where `tripCount` is the computed
unsigned trip count, equal to the iteration count on a nonempty loop without
overflow. For `lower = 0`, `upper = 15`, `incr = 1`, `chunk = 2`, `n = 4` the
threads get `(0,1)`, `(2,3)`, `(4,5)`, `(6,7)` with stride 8 and `lastIter`
on thread 3 only. -/
theorem static_chunked_case (n t lower upper incr chunk li st : Int)
    (hlo : InSigned 32 lower) (hinc : InSigned 32 incr) (hi : incr ≠ 0)
    (hch : InSigned 32 chunk) (hn : 2 ≤ n) (hn32 : InSigned 32 n) (ht0 : 0 ≤ t) (ht : t < n)
    (hf1 : InSigned 32 ((if chunk < 1 then 1 else chunk) * incr * n))
    (hf2 : InSigned 32 (lower + (if chunk < 1 then 1 else chunk) * incr * n)) :
    (∃ r tc, tripCount 32 lower upper incr = .ok tc ∧
      __kmpc_for_static_init_4 n t kmp.sch_static_chunked ⟨li, lower, upper, st⟩ incr chunk
        = .ok r ∧
      r.stride = (if chunk < 1 then 1 else chunk) * incr * n ∧
      r.lower = lower + (if chunk < 1 then 1 else chunk) * incr * t ∧
      r.upper = r.lower + (if chunk < 1 then 1 else chunk) * incr - incr ∧
      r.lastIter =
        (if t = (toUnsigned 32 (tc - 1) / (if chunk < 1 then 1 else chunk)) % n then 1 else 0) ∧
      (NonemptyLoop 32 lower upper incr →
        tc = iterations lower upper incr ∧
        r.lastIter = (if t = ((iterations lower upper incr - 1) /
          (if chunk < 1 then 1 else chunk)) % n then 1 else 0))) ∧
    __kmpc_for_static_init_4 4 0 kmp.sch_static_chunked ⟨0, 0, 15, 0⟩ 1 2 = .ok ⟨0, 0, 1, 8⟩ ∧
    __kmpc_for_static_init_4 4 1 kmp.sch_static_chunked ⟨0, 0, 15, 0⟩ 1 2 = .ok ⟨0, 2, 3, 8⟩ ∧
    __kmpc_for_static_init_4 4 2 kmp.sch_static_chunked ⟨0, 0, 15, 0⟩ 1 2 = .ok ⟨0, 4, 5, 8⟩ ∧
    __kmpc_for_static_init_4 4 3 kmp.sch_static_chunked ⟨0, 0, 15, 0⟩ 1 2 = .ok ⟨1, 6, 7, 8⟩ := by
  refine ⟨?_, by decide, by decide, by decide, by decide⟩
  obtain ⟨tc, htc⟩ := tripCount_ok 32 (Or.inl rfl) lower upper incr hi hinc
  have hn1 : ¬ (n = 1) := by omega
  have hcall : __kmpc_for_static_init_4 n t kmp.sch_static_chunked ⟨li, lower, upper, st⟩
      incr chunk = staticChunked 32 n t tc ⟨li, lower, upper, st⟩ incr chunk := by
    simp [__kmpc_for_static_init_4, for_static_init, hn1, htc]
  refine ⟨_, tc, htc, hcall.trans
    (staticChunked_32_eq n t tc lower upper incr chunk li st hlo hinc hi hch hn32 ht0 ht hf1 hf2),
    rfl, rfl, rfl, rfl, fun hl => ?_⟩
  have e := tripCount_32_eq lower upper incr hl
  rw [htc] at e
  cases e
  have h1 := (iterations_spec lower upper incr hi hl.2.2.2.2.1 hl.2.2.2.2.2.1).1
  have hfit := hl.2.2.2.2.2.2.2.2
  rw [inSigned_32] at hfit
  have hsub : subU 32 (iterations lower upper incr) 1 = iterations lower upper incr - 1 := by
    rw [subU, toUnsigned_32]; omega
  simp only [hsub, true_and]

/-- C5 on the chunked scenario of the specification, thread 3. -/
theorem static_chunked_case_witness :
    (∃ r tc, tripCount 32 0 15 1 = .ok tc ∧
      __kmpc_for_static_init_4 4 3 kmp.sch_static_chunked ⟨0, 0, 15, 0⟩ 1 2 = .ok r ∧
      r.stride = (if (2 : Int) < 1 then 1 else 2) * 1 * 4 ∧
      r.lower = 0 + (if (2 : Int) < 1 then 1 else 2) * 1 * 3 ∧
      r.upper = r.lower + (if (2 : Int) < 1 then 1 else 2) * 1 - 1 ∧
      r.lastIter =
        (if (3 : Int) = (toUnsigned 32 (tc - 1) / (if (2 : Int) < 1 then 1 else 2)) % 4
          then 1 else 0) ∧
      (NonemptyLoop 32 0 15 1 →
        tc = iterations 0 15 1 ∧
        r.lastIter = (if (3 : Int) = ((iterations 0 15 1 - 1) /
          (if (2 : Int) < 1 then 1 else 2)) % 4 then 1 else 0))) ∧
    __kmpc_for_static_init_4 4 0 kmp.sch_static_chunked ⟨0, 0, 15, 0⟩ 1 2 = .ok ⟨0, 0, 1, 8⟩ ∧
    __kmpc_for_static_init_4 4 1 kmp.sch_static_chunked ⟨0, 0, 15, 0⟩ 1 2 = .ok ⟨0, 2, 3, 8⟩ ∧
    __kmpc_for_static_init_4 4 2 kmp.sch_static_chunked ⟨0, 0, 15, 0⟩ 1 2 = .ok ⟨0, 4, 5, 8⟩ ∧
    __kmpc_for_static_init_4 4 3 kmp.sch_static_chunked ⟨0, 0, 15, 0⟩ 1 2 = .ok ⟨1, 6, 7, 8⟩ :=
  static_chunked_case 4 3 0 15 1 2 0 0 (by decide) (by decide) (by decide) (by decide)
    (by decide) (by decide) (by decide) (by decide) (by decide) (by decide)

/-! ## Iteration sets -/

/-- A descending loop is the mirror image of an ascending one. -/
theorem inLoop_neg (lower upper incr x : Int) (h : incr < 0) :
    InLoop lower upper incr x ↔ InLoop (-lower) (-upper) (-incr) (-x) := by
  unfold InLoop
  have h0 : ¬ (0 < incr) := by omega
  have h1 : 0 < -incr := by omega
  have e : -x - -lower = lower - x := by ring
  simp only [h0, h1, if_false, if_true, h, true_and, e, Int.emod_neg]
  constructor
  · rintro ⟨a, b, c⟩
    exact ⟨by omega, by omega, c⟩
  · rintro ⟨a, b, c⟩
    exact ⟨by omega, by omega, c⟩

/-- The iteration count of a descending loop is that of its mirror image. -/
theorem iterations_neg (lower upper incr : Int) (h : incr < 0) :
    iterations lower upper incr = iterations (-lower) (-upper) (-incr) := by
  unfold iterations
  have h0 : ¬ (0 < incr) := by omega
  have h1 : 0 < -incr := by omega
  have e : -upper - -lower = lower - upper := by ring
  simp only [h0, h1, if_false, if_true, h, e]
  by_cases hc : upper ≤ lower
  · have : -lower ≤ -upper := by omega
    simp only [hc, this, if_true]
  · have : ¬ (-lower ≤ -upper) := by omega
    simp only [hc, this, if_false]

/-- Ascending case of `inLoop_steps`. -/
theorem inLoop_steps_pos (lo incr a b x : Int) (h : 0 < incr) :
    InLoop (lo + incr * a) (lo + incr * b) incr x ↔
      ∃ k, a ≤ k ∧ k ≤ b ∧ x = lo + incr * k := by
  unfold InLoop
  simp only [h, if_true]
  constructor
  · rintro ⟨h1, h2, h3⟩
    have hd := Int.ediv_add_emod (x - (lo + incr * a)) incr
    rw [h3, Int.add_zero] at hd
    generalize (x - (lo + incr * a)) / incr = q at hd
    have hq : 0 ≤ q := nonneg_of_mul_nonneg_right (by omega : 0 ≤ incr * q) h
    have e : incr * (a + q) = incr * a + incr * q := by ring
    refine ⟨a + q, by omega, ?_, by rw [e]; omega⟩
    have : incr * (a + q) ≤ incr * b := by rw [e]; omega
    exact le_of_mul_le_mul_left this h
  · rintro ⟨k, hk1, hk2, rfl⟩
    have e1 : incr * a ≤ incr * k := Int.mul_le_mul_of_nonneg_left hk1 (by omega)
    have e2 : incr * k ≤ incr * b := Int.mul_le_mul_of_nonneg_left hk2 (by omega)
    refine ⟨by omega, by omega, ?_⟩
    have : lo + incr * k - (lo + incr * a) = incr * (k - a) := by ring
    rw [this]
    exact Int.mul_emod_right _ _

/-- The loop variable takes exactly the values `lo + incr * k` with `a ≤ k ≤ b`
on the range from `lo + incr * a` to `lo + incr * b`. -/
theorem inLoop_steps (lo incr a b x : Int) (hi : incr ≠ 0) :
    InLoop (lo + incr * a) (lo + incr * b) incr x ↔
      ∃ k, a ≤ k ∧ k ≤ b ∧ x = lo + incr * k := by
  rcases lt_or_gt_of_ne hi with h | h
  · rw [inLoop_neg _ _ _ _ h]
    have e1 : -(lo + incr * a) = -lo + -incr * a := by ring
    have e2 : -(lo + incr * b) = -lo + -incr * b := by ring
    rw [e1, e2, inLoop_steps_pos (-lo) (-incr) a b (-x) (by omega)]
    constructor
    · rintro ⟨k, h1, h2, h3⟩
      exact ⟨k, h1, h2, by linear_combination -h3⟩
    · rintro ⟨k, h1, h2, h3⟩
      exact ⟨k, h1, h2, by linear_combination -h3⟩
  · exact inLoop_steps_pos lo incr a b x h

/-- Ascending case of `inLoop_iff`. -/
theorem inLoop_iff_pos (lower upper incr x : Int) (h : 0 < incr) (hlu : lower ≤ upper) :
    InLoop lower upper incr x ↔
      ∃ k, 0 ≤ k ∧ k ≤ iterations lower upper incr - 1 ∧ x = lower + incr * k := by
  obtain ⟨h1, h2, -⟩ := iterations_spec lower upper incr (by omega) (fun _ => hlu)
    (fun hc => by omega)
  obtain ⟨h2a, h2b⟩ := h2 h
  rw [← inLoop_steps_pos lower incr 0 (iterations lower upper incr - 1) x h]
  generalize iterations lower upper incr = tc at *
  have e0 : lower + incr * 0 = lower := by ring
  rw [e0]
  unfold InLoop
  simp only [h, if_true]
  constructor
  · rintro ⟨c1, c2, c3⟩
    refine ⟨c1, ?_, c3⟩
    have hd := Int.ediv_add_emod (x - lower) incr
    rw [c3, Int.add_zero] at hd
    generalize (x - lower) / incr = q at hd
    have hq : q < tc := lt_of_mul_lt_mul_left (by omega : incr * q < incr * tc) (by omega)
    have : incr * q ≤ incr * (tc - 1) := Int.mul_le_mul_of_nonneg_left (by omega) (by omega)
    omega
  · rintro ⟨c1, c2, c3⟩
    exact ⟨c1, by omega, c3⟩

/-- The iterations of a nonempty loop are the values `lower + incr * k` with
`0 ≤ k < iterations`. -/
theorem inLoop_iff (lower upper incr x : Int) (hi : incr ≠ 0)
    (hp : 0 < incr → lower ≤ upper) (hm : incr < 0 → upper ≤ lower) :
    InLoop lower upper incr x ↔
      ∃ k, 0 ≤ k ∧ k ≤ iterations lower upper incr - 1 ∧ x = lower + incr * k := by
  rcases lt_or_gt_of_ne hi with h | h
  · rw [inLoop_neg _ _ _ _ h, iterations_neg _ _ _ h,
      inLoop_iff_pos (-lower) (-upper) (-incr) (-x) (by omega) (by have := hm h; omega)]
    constructor
    · rintro ⟨k, h1, h2, h3⟩
      exact ⟨k, h1, h2, by linear_combination -h3⟩
    · rintro ⟨k, h1, h2, h3⟩
      exact ⟨k, h1, h2, by linear_combination -h3⟩
  · exact inLoop_iff_pos lower upper incr x h (hp h)

/-- First iteration index of thread `t` in the balanced partition. -/
theorem start_mono (sc ex t u : Int) (hsc : 0 ≤ sc) (h : t ≤ u) :
    t * sc + min t ex ≤ u * sc + min u ex := by
  have : t * sc ≤ u * sc := Int.mul_le_mul_of_nonneg_right h hsc
  omega

/-- Every index below the start of thread `m` belongs to one of the threads
before `m`. -/
theorem start_cover (sc ex : Int) (m : Nat) :
    ∀ k : Int, 0 ≤ k → k < (m : Int) * sc + min (m : Int) ex →
      ∃ t : Int, 0 ≤ t ∧ t < m ∧ t * sc + min t ex ≤ k ∧
        k < (t + 1) * sc + min (t + 1) ex := by
  induction m with
  | zero =>
    intro k hk hlt
    simp only [Nat.cast_zero, Int.zero_mul] at hlt
    omega
  | succ m ih =>
    intro k hk hlt
    by_cases hc : k < (m : Int) * sc + min (m : Int) ex
    · obtain ⟨t, h1, h2, h3, h4⟩ := ih k hk hc
      exact ⟨t, h1, by push_cast; omega, h3, h4⟩
    · refine ⟨m, by omega, by push_cast; omega, by omega, ?_⟩
      push_cast at hlt
      exact hlt

/-- Range of thread `t` in the balanced partition, by iteration indices. -/
theorem balanced_range (n t lower upper incr li st : Int)
    (hl : NonemptyLoop 32 lower upper incr) (hn : 2 ≤ n) (hn32 : InSigned 32 n)
    (ht0 : 0 ≤ t) (ht : t < n) (htc : n ≤ iterations lower upper incr) :
    ∃ r, staticBalanced 32 n t (iterations lower upper incr) ⟨li, lower, upper, st⟩ incr =
        .ok r ∧
      r.lastIter = (if t = n - 1 then 1 else 0) ∧
      r.lower = lower + incr * (t * (iterations lower upper incr / n) +
        min t (iterations lower upper incr % n)) ∧
      r.upper = lower + incr * ((t + 1) * (iterations lower upper incr / n) +
        min (t + 1) (iterations lower upper incr % n) - 1) := by
  refine ⟨_, staticBalanced_32_eq n t lower upper incr li st hl hn hn32 ht0 ht htc, rfl, rfl, ?_⟩
  simp only
  generalize iterations lower upper incr / n = sc
  generalize iterations lower upper incr % n = ex
  by_cases hte : t < ex
  · have e1 : min (t + 1) ex = t + 1 := by omega
    have e2 : min t ex = t := by omega
    simp only [hte, if_true, e1, e2]
    ring
  · have e1 : min (t + 1) ex = ex := by omega
    have e2 : min t ex = ex := by omega
    simp only [hte, if_false, e1, e2]
    ring

/-- The final iteration of a nonempty loop is one of its iterations. -/
theorem final_inLoop (lower upper incr : Int) (hi : incr ≠ 0)
    (hp : 0 < incr → lower ≤ upper) (hm : incr < 0 → upper ≤ lower) :
    InLoop lower upper incr (lower + incr * (iterations lower upper incr - 1)) := by
  rw [inLoop_iff lower upper incr _ hi hp hm]
  have := (iterations_spec lower upper incr hi hp hm).1
  exact ⟨_, by omega, le_refl _, rfl⟩

/-! ## The last iteration -/

/-- With a team of at least two threads the static-chunked schedule of a
nonempty 32-bit loop is computed from its true iteration count. -/
theorem for_static_init_32_chunked (n t lower upper incr chunk li st : Int)
    (hl : NonemptyLoop 32 lower upper incr) (hn : 2 ≤ n) :
    __kmpc_for_static_init_4 n t kmp.sch_static_chunked ⟨li, lower, upper, st⟩ incr chunk =
      staticChunked 32 n t (iterations lower upper incr) ⟨li, lower, upper, st⟩ incr chunk := by
  have h1 : ¬ (n = 1) := by omega
  simp only [__kmpc_for_static_init_4, for_static_init, h1, if_false,
    tripCount_32_eq lower upper incr hl]
  simp

/-- With a single thread every schedule leaves the bounds unchanged and
reports the last iteration. -/
theorem for_static_init_32_single (t schedule lower upper incr chunk li st : Int) :
    ∃ s, __kmpc_for_static_init_4 1 t schedule ⟨li, lower, upper, st⟩ incr chunk =
      .ok ⟨1, lower, upper, s⟩ :=
  ⟨if 0 < incr then addS 32 (subS 32 upper lower) 1
    else negS 32 (addS 32 (subS 32 lower upper) 1),
    by simp [__kmpc_for_static_init_4, for_static_init]⟩

/-- A one-point range contains its point. -/
theorem inLoop_self (x incr : Int) (hi : incr ≠ 0) : InLoop x x incr x := by
  unfold InLoop
  rcases lt_or_gt_of_ne hi with h | h
  · have h0 : ¬ (0 < incr) := by omega
    simp [h0, h]
  · simp [h]

/-- C3. For the schedules `static_chunked` (33) and `static` (34), every team
size `n ≥ 1` and every 32-bit loop with at least one iteration and no
overflow, `__kmpc_for_static_init_4` sets `lastIter = 1` on exactly one thread
number `tl` in `[0, n)` and 0 on all others, and the loop's final iteration
`lower + incr * (tripCount - 1)` is assigned to that thread: it lies in the
thread's range `[lower', upper']`, advanced by `j ≥ 0` strides for the
chunked schedule (`j = 0` for the static schedule and for a single thread). -/
theorem last_iter_unique (n schedule lower upper incr chunk li st : Int)
    (hl : NonemptyLoop 32 lower upper incr) (hn : 1 ≤ n) (hn32 : InSigned 32 n)
    (hs : schedule = kmp.sch_static_chunked ∨ schedule = kmp.sch_static)
    (hch : InSigned 32 chunk)
    (hf : schedule = kmp.sch_static_chunked → 2 ≤ n →
      InSigned 32 ((if chunk < 1 then 1 else chunk) * incr * n) ∧
      InSigned 32 (lower + (if chunk < 1 then 1 else chunk) * incr * n)) :
    ∃ tl, 0 ≤ tl ∧ tl < n ∧
      (∀ t, 0 ≤ t → t < n →
        ∃ r, __kmpc_for_static_init_4 n t schedule ⟨li, lower, upper, st⟩ incr chunk = .ok r ∧
          r.lastIter = if t = tl then 1 else 0) ∧
      ∃ r j, 0 ≤ j ∧
        __kmpc_for_static_init_4 n tl schedule ⟨li, lower, upper, st⟩ incr chunk = .ok r ∧
        r.lastIter = 1 ∧
        InLoop (r.lower + j * r.stride) (r.upper + j * r.stride) incr
          (lower + incr * (iterations lower upper incr - 1)) ∧
        (schedule = kmp.sch_static ∨ n = 1 → j = 0) := by
  have hl' := hl
  obtain ⟨hlo, hup, hinc, hi, hp, hm, hd, hd', hfit⟩ := hl'
  have htc1 := (iterations_spec lower upper incr hi hp hm).1
  rcases eq_or_lt_of_le hn with h1 | h2
  · -- a single thread
    subst h1
    refine ⟨0, le_refl _, by omega, fun t ht0 ht => ?_, ?_⟩
    · have : t = 0 := by omega
      subst this
      obtain ⟨s, hs'⟩ := for_static_init_32_single 0 schedule lower upper incr chunk li st
      exact ⟨_, hs', rfl⟩
    · obtain ⟨s, hs'⟩ := for_static_init_32_single 0 schedule lower upper incr chunk li st
      refine ⟨_, 0, le_refl _, hs', rfl, ?_, fun _ => rfl⟩
      simp only [Int.zero_mul, Int.add_zero]
      exact final_inLoop lower upper incr hi hp hm
  have hn2 : 2 ≤ n := by omega
  rcases hs with hs | hs
  · -- static chunked
    subst hs
    obtain ⟨hf1, hf2⟩ := hf rfl hn2
    have hcall := fun t => for_static_init_32_chunked n t lower upper incr chunk li st hl hn2
    have hcl := fun t ht0 ht => staticChunked_32_eq n t (iterations lower upper incr) lower upper
      incr chunk li st hlo hinc hi hch hn32 ht0 ht hf1 hf2
    rw [inSigned_32] at hfit hch
    have hsub : subU 32 (iterations lower upper incr) 1 = iterations lower upper incr - 1 := by
      rw [subU, toUnsigned_32]; omega
    simp only [hsub] at hcl
    generalize hcdef : (if chunk < 1 then 1 else chunk) = c at *
    have hc1 : 1 ≤ c := by rw [← hcdef]; split <;> omega
    generalize htcdef : iterations lower upper incr = tc at *
    have hq0 : 0 ≤ (tc - 1) / c := Int.ediv_nonneg (by omega) (by omega)
    have hqa := Int.mul_ediv_self_le (x := tc - 1) (k := c) (by omega)
    have hqb := Int.lt_mul_ediv_self_add (x := tc - 1) (k := c) (by omega)
    generalize hqdef : (tc - 1) / c = q at *
    have hr0 := Int.emod_nonneg q (b := n) (by omega)
    have hr1 := Int.emod_lt_of_pos q (b := n) (by omega)
    have hj0 : 0 ≤ q / n := Int.ediv_nonneg hq0 (by omega)
    have hdm := Int.ediv_add_emod q n
    refine ⟨q % n, hr0, hr1, fun t ht0 ht => ⟨_, (hcall t).trans (hcl t ht0 ht), rfl⟩, ?_⟩
    refine ⟨_, q / n, hj0, (hcall _).trans (hcl _ hr0 hr1), by simp, ?_, fun h => ?_⟩
    · simp only
      have e1 : lower + c * incr * (q % n) + q / n * (c * incr * n) = lower + incr * (c * q) := by
        linear_combination (c * incr) * hdm
      have e2 : lower + c * incr * (q % n) + c * incr - incr + q / n * (c * incr * n) =
          lower + incr * (c * q + c - 1) := by
        linear_combination (c * incr) * hdm
      rw [e1, e2, inLoop_steps lower incr _ _ _ hi]
      exact ⟨tc - 1, hqa, by omega, rfl⟩
    · rcases h with h | h
      · exact absurd h (by decide)
      · omega
  · -- static
    subst hs
    have hcall := fun t => for_static_init_32_static n t lower upper incr chunk li st hl hn2
    by_cases hcmp : n ≤ iterations lower upper incr
    · -- balanced partition: the last thread
      obtain ⟨hsc, hex0, hex, hdiv, -, hlast⟩ :=
        chunk_facts (iterations lower upper incr) n (n - 1) hn2 hcmp (by omega) (by omega)
      refine ⟨n - 1, by omega, by omega, fun t ht0 ht => ?_, ?_⟩
      · obtain ⟨r, hr, hli, -, -⟩ := balanced_range n t lower upper incr li st hl hn2 hn32 ht0 ht hcmp
        exact ⟨r, (hcall t).trans hr, hli⟩
      · obtain ⟨r, hr, hli, hlw, huw⟩ :=
          balanced_range n (n - 1) lower upper incr li st hl hn2 hn32 (by omega) (by omega) hcmp
        refine ⟨r, 0, le_refl _, (hcall _).trans hr, by simp [hli], ?_, fun _ => rfl⟩
        simp only [Int.zero_mul, Int.add_zero]
        rw [hlw, huw, inLoop_steps lower incr _ _ _ hi]
        have e : n - 1 + 1 = n := by ring
        rw [e]
        generalize iterations lower upper incr = tc at *
        generalize tc / n = sc at *
        generalize tc % n = ex at *
        generalize n * sc = p at *
        generalize (n - 1) * sc = p' at *
        exact ⟨tc - 1, by omega, by omega, rfl⟩
    · -- fewer iterations than threads: thread `tc - 1`
      have hlt : iterations lower upper incr < n := by omega
      have hcl := fun t ht0 ht => staticShort_32_eq n t lower upper incr li st hl hn32 hlt ht0 ht
      refine ⟨iterations lower upper incr - 1, by omega, by omega,
        fun t ht0 ht => ⟨_, (hcall t).trans (hcl t ht0 ht), rfl⟩, ?_⟩
      refine ⟨_, 0, le_refl _, (hcall _).trans (hcl _ (by omega) (by omega)), by simp, ?_,
        fun _ => rfl⟩
      have hlt' : iterations lower upper incr - 1 < iterations lower upper incr := by omega
      simp only [Int.zero_mul, Int.add_zero, hlt', if_true]
      have e : lower + (iterations lower upper incr - 1) * incr =
          lower + incr * (iterations lower upper incr - 1) := by ring
      rw [e]
      exact inLoop_self _ _ hi

/-- C3 on the chunked scenario of the specification. -/
theorem last_iter_unique_witness :
    ∃ tl, 0 ≤ tl ∧ tl < 4 ∧
      (∀ t, 0 ≤ t → t < 4 →
        ∃ r, __kmpc_for_static_init_4 4 t kmp.sch_static_chunked ⟨0, 0, 15, 0⟩ 1 2 = .ok r ∧
          r.lastIter = if t = tl then 1 else 0) ∧
      ∃ r j, 0 ≤ j ∧
        __kmpc_for_static_init_4 4 tl kmp.sch_static_chunked ⟨0, 0, 15, 0⟩ 1 2 = .ok r ∧
        r.lastIter = 1 ∧
        InLoop (r.lower + j * r.stride) (r.upper + j * r.stride) 1
          (0 + 1 * (iterations 0 15 1 - 1)) ∧
        (kmp.sch_static_chunked = kmp.sch_static ∨ (4 : Int) = 1 → j = 0) :=
  last_iter_unique 4 kmp.sch_static_chunked 0 15 1 2 0 0 (by decide) (by decide) (by decide)
    (Or.inl rfl) (by decide) (fun _ _ => by decide)

/-! ## Partition of the iteration set -/

/-- An iteration of a range lies between its bounds. -/
theorem inLoop_bounds (lo up incr x : Int) (h : InLoop lo up incr x) :
    (0 < incr → lo ≤ x ∧ x ≤ up) ∧ (¬ (0 < incr) → incr < 0 ∧ up ≤ x ∧ x ≤ lo) := by
  unfold InLoop at h
  constructor
  · intro hp
    simp only [hp, if_true] at h
    exact ⟨h.1, h.2.1⟩
  · intro hp
    simp only [hp, if_false] at h
    exact ⟨h.1, h.2.1, h.2.2.1⟩

/-- The ranges written by the static schedule partition the iterations of a
nonempty 32-bit loop (team of at least two threads). -/
theorem static_partition_aux (n lower upper incr li st : Int)
    (hl : NonemptyLoop 32 lower upper incr) (hn : 2 ≤ n) (hn32 : InSigned 32 n)
    (hov : iterations lower upper incr < n → InSigned 32 (upper + incr)) :
    ∃ f : Int → LoopBounds,
      (∀ t, 0 ≤ t → t < n →
        staticBalanced 32 n t (iterations lower upper incr) ⟨li, lower, upper, st⟩ incr =
          .ok (f t)) ∧
      (∀ x, InLoop lower upper incr x ↔
        ∃ t, 0 ≤ t ∧ t < n ∧ InLoop (f t).lower (f t).upper incr x) ∧
      (∀ t u x, 0 ≤ t → t < n → 0 ≤ u → u < n →
        InLoop (f t).lower (f t).upper incr x → InLoop (f u).lower (f u).upper incr x →
        t = u) := by
  have hl' := hl
  obtain ⟨hlo, hup, hinc, hi, hp, hm, hd, hd', hfit⟩ := hl'
  have htc1 := (iterations_spec lower upper incr hi hp hm).1
  by_cases hcmp : n ≤ iterations lower upper incr
  · -- balanced partition
    obtain ⟨hsc, hex0, hex, hdiv, -, -⟩ :=
      chunk_facts (iterations lower upper incr) n 0 hn hcmp (le_refl _) (by omega)
    have hsc0 : 0 ≤ iterations lower upper incr / n := by omega
    have hstart0 : (0 : Int) * (iterations lower upper incr / n) +
        min 0 (iterations lower upper incr % n) = 0 := by
      rw [Int.zero_mul]; omega
    have hstartn : n * (iterations lower upper incr / n) +
        min n (iterations lower upper incr % n) = iterations lower upper incr := by omega
    refine ⟨fun t => ⟨if t = n - 1 then 1 else 0,
      lower + incr * (t * (iterations lower upper incr / n) +
        min t (iterations lower upper incr % n)),
      lower + incr * ((t + 1) * (iterations lower upper incr / n) +
        min (t + 1) (iterations lower upper incr % n) - 1), iterations lower upper incr⟩,
      fun t ht0 ht => ?_, fun x => ?_, fun t u x ht0 ht hu0 hu h1 h2 => ?_⟩
    · obtain ⟨r, hr, h1, h2, h3⟩ :=
        balanced_range n t lower upper incr li st hl hn hn32 ht0 ht hcmp
      rw [hr]
      obtain ⟨a, b, c, d⟩ := r
      simp only at h1 h2 h3
      have h4 : d = iterations lower upper incr := by
        have := staticBalanced_32_eq n t lower upper incr li st hl hn hn32 ht0 ht hcmp
        rw [hr] at this
        cases this
        rfl
      rw [h1, h2, h3, h4]
    · simp only
      rw [inLoop_iff lower upper incr x hi hp hm]
      generalize iterations lower upper incr = tc at *
      generalize tc / n = sc at *
      generalize tc % n = ex at *
      constructor
      · rintro ⟨k, hk0, hk1, rfl⟩
        have hnn : ((n.toNat : Nat) : Int) = n := Int.toNat_of_nonneg (by omega)
        obtain ⟨t, h1, h2, h3, h4⟩ := start_cover sc ex n.toNat k hk0 (by rw [hnn]; omega)
        rw [hnn] at h2
        refine ⟨t, h1, h2, ?_⟩
        rw [inLoop_steps lower incr _ _ _ hi]
        exact ⟨k, h3, by omega, rfl⟩
      · rintro ⟨t, ht0, ht, hx⟩
        rw [inLoop_steps lower incr _ _ _ hi] at hx
        obtain ⟨k, hk0, hk1, rfl⟩ := hx
        have m1 := start_mono sc ex 0 t hsc0 ht0
        have m2 := start_mono sc ex (t + 1) n hsc0 (by omega)
        exact ⟨k, by omega, by omega, rfl⟩
    · simp only at h1 h2
      rw [inLoop_steps lower incr _ _ _ hi] at h1 h2
      obtain ⟨k, hk0, hk1, rfl⟩ := h1
      obtain ⟨k', hk0', hk1', he⟩ := h2
      have hkk : k = k' := by
        have : incr * k = incr * k' := by omega
        exact Int.eq_of_mul_eq_mul_left hi this
      subst hkk
      generalize iterations lower upper incr / n = sc at *
      generalize iterations lower upper incr % n = ex at *
      rcases lt_trichotomy t u with h | h | h
      · have := start_mono sc ex (t + 1) u hsc0 (by omega)
        omega
      · exact h
      · have := start_mono sc ex (u + 1) t hsc0 (by omega)
        omega
  · -- fewer iterations than threads
    have hlt : iterations lower upper incr < n := by omega
    have hfits := hov hlt
    rw [inSigned_32] at hfits
    have hadd : addS 32 upper incr = upper + incr := by
      simp only [addS, toSigned_32]
      omega
    refine ⟨fun t => ⟨if t = iterations lower upper incr - 1 then 1 else 0,
      if t < iterations lower upper incr then lower + t * incr else upper + incr,
      if t < iterations lower upper incr then lower + t * incr else upper,
      iterations lower upper incr⟩,
      fun t ht0 ht => ?_, fun x => ?_, fun t u x ht0 ht hu0 hu h1 h2 => ?_⟩
    · rw [staticShort_32_eq n t lower upper incr li st hl hn32 hlt ht0 ht, hadd]
    · simp only
      rw [inLoop_iff lower upper incr x hi hp hm]
      constructor
      · rintro ⟨k, hk0, hk1, rfl⟩
        have hk : k < iterations lower upper incr := by omega
        refine ⟨k, hk0, by omega, ?_⟩
        simp only [hk, if_true]
        have e : lower + k * incr = lower + incr * k := by ring
        rw [e]
        exact inLoop_self _ _ hi
      · rintro ⟨t, ht0, ht, hx⟩
        by_cases hc : t < iterations lower upper incr
        · simp only [hc, if_true] at hx
          have hb := inLoop_bounds _ _ _ _ hx
          refine ⟨t, ht0, by omega, ?_⟩
          have e : lower + t * incr = lower + incr * t := by ring
          by_cases h0 : 0 < incr
          · have := hb.1 h0
            omega
          · have := hb.2 h0
            omega
        · simp only [hc, if_false] at hx
          have hb := inLoop_bounds _ _ _ _ hx
          by_cases h0 : 0 < incr
          · have := hb.1 h0
            omega
          · have := hb.2 h0
            omega
    · simp only at h1 h2
      have point : ∀ v, InLoop
          (if v < iterations lower upper incr then lower + v * incr else upper + incr)
          (if v < iterations lower upper incr then lower + v * incr else upper) incr x →
          x = lower + incr * v := by
        intro v hx
        have e : lower + v * incr = lower + incr * v := by ring
        by_cases hc : v < iterations lower upper incr
        · simp only [hc, if_true] at hx
          have hb := inLoop_bounds _ _ _ _ hx
          by_cases h0 : 0 < incr
          · have := hb.1 h0
            omega
          · have := hb.2 h0
            omega
        · simp only [hc, if_false] at hx
          have hb := inLoop_bounds _ _ _ _ hx
          by_cases h0 : 0 < incr
          · have := hb.1 h0
            omega
          · have := hb.2 h0
            omega
      have a1 := point t h1
      have a2 := point u h2
      exact Int.eq_of_mul_eq_mul_left hi (by omega)

/-- The first chunks written by the static-chunked schedule are pairwise
disjoint and cover the first `chunk * n` points of the progression. -/
theorem chunked_partition_aux (n tc lower upper incr chunk li st : Int)
    (hlo : InSigned 32 lower) (hinc : InSigned 32 incr) (hi : incr ≠ 0)
    (hch : InSigned 32 chunk) (hn32 : InSigned 32 n)
    (hf1 : InSigned 32 ((if chunk < 1 then 1 else chunk) * incr * n))
    (hf2 : InSigned 32 (lower + (if chunk < 1 then 1 else chunk) * incr * n)) :
    ∃ f : Int → LoopBounds,
      (∀ t, 0 ≤ t → t < n →
        staticChunked 32 n t tc ⟨li, lower, upper, st⟩ incr chunk = .ok (f t)) ∧
      (∀ x, (∃ k, 0 ≤ k ∧ k < (if chunk < 1 then 1 else chunk) * n ∧ x = lower + incr * k) ↔
        ∃ t, 0 ≤ t ∧ t < n ∧ InLoop (f t).lower (f t).upper incr x) ∧
      (∀ t u x, 0 ≤ t → t < n → 0 ≤ u → u < n →
        InLoop (f t).lower (f t).upper incr x → InLoop (f u).lower (f u).upper incr x →
        t = u) := by
  have hcl := fun t ht0 ht => staticChunked_32_eq n t tc lower upper incr chunk li st hlo hinc hi
    hch hn32 ht0 ht hf1 hf2
  generalize hcdef : (if chunk < 1 then 1 else chunk) = c at *
  have hc1 : 1 ≤ c := by
    rw [inSigned_32] at hch
    rw [← hcdef]; split <;> omega
  have e1 : ∀ t, lower + c * incr * t = lower + incr * (c * t) := fun t => by ring
  have e2 : ∀ t, lower + incr * (c * t) + c * incr - incr = lower + incr * (c * t + c - 1) :=
    fun t => by ring
  have mono : ∀ t u : Int, t + 1 ≤ u → c * t + c ≤ c * u := by
    intro t u h
    have : c * (t + 1) ≤ c * u := Int.mul_le_mul_of_nonneg_left h (by omega)
    have e : c * (t + 1) = c * t + c := by ring
    omega
  refine ⟨fun t => ⟨if t = (subU 32 tc 1 / c) % n then 1 else 0, lower + c * incr * t,
    lower + c * incr * t + c * incr - incr, c * incr * n⟩,
    fun t ht0 ht => hcl t ht0 ht, fun x => ?_, fun t u x ht0 ht hu0 hu h1 h2 => ?_⟩
  · simp only [e1, e2]
    constructor
    · rintro ⟨k, hk0, hk1, rfl⟩
      have ha := Int.mul_ediv_self_le (x := k) (k := c) (by omega)
      have hb := Int.lt_mul_ediv_self_add (x := k) (k := c) (by omega)
      have hq0 : 0 ≤ k / c := Int.ediv_nonneg hk0 (by omega)
      have hqn : k / c < n := by
        by_contra hge
        have := mono (n - 1) (k / c) (by omega)
        have e : c * (n - 1) + c = c * n := by ring
        omega
      refine ⟨k / c, hq0, hqn, ?_⟩
      rw [inLoop_steps lower incr _ _ _ hi]
      exact ⟨k, ha, by omega, rfl⟩
    · rintro ⟨t, ht0, ht, hx⟩
      rw [inLoop_steps lower incr _ _ _ hi] at hx
      obtain ⟨k, hk0, hk1, rfl⟩ := hx
      have h0 : 0 ≤ c * t := Int.mul_nonneg (by omega) ht0
      have h1 := mono t n (by omega)
      exact ⟨k, by omega, by omega, rfl⟩
  · simp only [e1, e2] at h1 h2
    rw [inLoop_steps lower incr _ _ _ hi] at h1 h2
    obtain ⟨k, hk0, hk1, rfl⟩ := h1
    obtain ⟨k', hk0', hk1', he⟩ := h2
    have hkk : k = k' := Int.eq_of_mul_eq_mul_left hi (by omega)
    subst hkk
    rcases lt_trichotomy t u with h | h | h
    · have := mono t u (by omega)
      omega
    · exact h
    · have := mono u t (by omega)
      omega

/-- C2, as amended. For the static schedule (34) with any team size `n ≥ 1`,
and for any schedule when `n = 1`, on every nonempty 32-bit loop without
overflow (`upper + incr` included when the loop has fewer iterations than
threads), the sub-ranges `[lower', upper']` written for the threads
`0 .. n - 1` are pairwise disjoint and their union is exactly the iteration
set of the loop. For the static-chunked schedule (33) with `n ≥ 2` the
sub-ranges are each thread's first chunk: they are pairwise disjoint and
their union is the set of the first `chunk * n` values `lower + incr * k`. -/
theorem static_ranges_partition (n schedule lower upper incr chunk li st : Int)
    (hl : NonemptyLoop 32 lower upper incr) (hn : 1 ≤ n) (hn32 : InSigned 32 n) :
    (schedule = kmp.sch_static ∨ n = 1 →
      (iterations lower upper incr < n → InSigned 32 (upper + incr)) →
      RangesPartition n schedule ⟨li, lower, upper, st⟩ incr chunk
        (InLoop lower upper incr)) ∧
    (schedule = kmp.sch_static_chunked → 2 ≤ n → InSigned 32 chunk →
      InSigned 32 ((if chunk < 1 then 1 else chunk) * incr * n) →
      InSigned 32 (lower + (if chunk < 1 then 1 else chunk) * incr * n) →
      RangesPartition n schedule ⟨li, lower, upper, st⟩ incr chunk
        (fun x => ∃ k, 0 ≤ k ∧ k < (if chunk < 1 then 1 else chunk) * n ∧
          x = lower + incr * k)) := by
  have transfer : ∀ (P : Int → Prop) (g : Int → Except Fault LoopBounds),
      (∀ t, 0 ≤ t → t < n →
        __kmpc_for_static_init_4 n t schedule ⟨li, lower, upper, st⟩ incr chunk = g t) →
      (∃ f : Int → LoopBounds,
        (∀ t, 0 ≤ t → t < n → g t = .ok (f t)) ∧
        (∀ x, P x ↔ ∃ t, 0 ≤ t ∧ t < n ∧ InLoop (f t).lower (f t).upper incr x) ∧
        (∀ t u x, 0 ≤ t → t < n → 0 ≤ u → u < n →
          InLoop (f t).lower (f t).upper incr x → InLoop (f u).lower (f u).upper incr x →
          t = u)) →
      RangesPartition n schedule ⟨li, lower, upper, st⟩ incr chunk P := by
    rintro P g hg ⟨f, hf, hcov, hdis⟩
    have hcall : ∀ t, 0 ≤ t → t < n →
        __kmpc_for_static_init_4 n t schedule ⟨li, lower, upper, st⟩ incr chunk = .ok (f t) :=
      fun t ht0 ht => (hg t ht0 ht).trans (hf t ht0 ht)
    refine ⟨fun t ht0 ht => ⟨_, hcall t ht0 ht⟩, fun x => ?_, ?_⟩
    · rw [hcov x]
      constructor
      · rintro ⟨t, ht0, ht, hx⟩
        exact ⟨t, _, ht0, ht, hcall t ht0 ht, hx⟩
      · rintro ⟨t, r, ht0, ht, hr, hx⟩
        rw [hcall t ht0 ht] at hr
        cases hr
        exact ⟨t, ht0, ht, hx⟩
    · intro t u r r' x ht0 ht hu0 hu hr hr' hx hx'
      rw [hcall t ht0 ht] at hr
      rw [hcall u hu0 hu] at hr'
      cases hr
      cases hr'
      exact hdis t u x ht0 ht hu0 hu hx hx'
  constructor
  · intro hs hov
    rcases eq_or_lt_of_le hn with h1 | h2
    · -- a single thread
      subst h1
      obtain ⟨s, hs'⟩ := for_static_init_32_single 0 schedule lower upper incr chunk li st
      refine transfer _ (fun _ => .ok ⟨1, lower, upper, s⟩) (fun t ht0 ht => ?_)
        ⟨fun _ => ⟨1, lower, upper, s⟩, fun _ _ _ => rfl, fun x => ?_,
          fun t u x ht0 ht hu0 hu _ _ => by omega⟩
      · have : t = 0 := by omega
        subst this
        exact hs'
      · exact ⟨fun h => ⟨0, le_refl _, by omega, h⟩, fun ⟨_, _, _, h⟩ => h⟩
    · have hn2 : 2 ≤ n := by omega
      have hsch : schedule = kmp.sch_static := by
        rcases hs with h | h
        · exact h
        · omega
      subst hsch
      exact transfer _ _
        (fun t _ _ => for_static_init_32_static n t lower upper incr chunk li st hl hn2)
        (static_partition_aux n lower upper incr li st hl hn2 hn32 hov)
  · intro hs hn2 hch hf1 hf2
    subst hs
    exact transfer _ _
      (fun t _ _ => for_static_init_32_chunked n t lower upper incr chunk li st hl hn2)
      (chunked_partition_aux n (iterations lower upper incr) lower upper incr chunk li st
        hl.1 hl.2.2.1 hl.2.2.2.1 hch hn32 hf1 hf2)

/-- C2 as amended, on the uneven scenario of the specification: the four
ranges written for the loop `0 .. 10` partition its iterations. -/
theorem static_ranges_partition_witness :
    RangesPartition 4 kmp.sch_static ⟨0, 0, 10, 0⟩ 1 0 (InLoop 0 10 1) :=
  (static_ranges_partition 4 kmp.sch_static 0 10 1 0 0 0 (by decide) (by decide)
    (by decide)).1 (Or.inl rfl) (by decide)

/-- C2 as stated fails. Static-chunked schedule, loop `0 .. 15` by 1, chunk 2,
four threads: the threads receive `(0,1)`, `(2,3)`, `(4,5)`, `(6,7)`, so
iteration 8 of the loop lies in no sub-range and the sub-ranges do not
partition the iteration set. Static schedule, two threads, empty loop
`0 .. -5` by 1: thread 0 receives `(0, 2147483645)`, which contains 0,
although the loop has no iteration. -/
theorem chunked_ranges_miss_iterations :
    ¬ RangesPartition 4 kmp.sch_static_chunked ⟨0, 0, 15, 0⟩ 1 2 (InLoop 0 15 1) ∧
    InLoop 0 15 1 8 ∧
    __kmpc_for_static_init_4 4 0 kmp.sch_static_chunked ⟨0, 0, 15, 0⟩ 1 2 = .ok ⟨0, 0, 1, 8⟩ ∧
    __kmpc_for_static_init_4 4 1 kmp.sch_static_chunked ⟨0, 0, 15, 0⟩ 1 2 = .ok ⟨0, 2, 3, 8⟩ ∧
    __kmpc_for_static_init_4 4 2 kmp.sch_static_chunked ⟨0, 0, 15, 0⟩ 1 2 = .ok ⟨0, 4, 5, 8⟩ ∧
    __kmpc_for_static_init_4 4 3 kmp.sch_static_chunked ⟨0, 0, 15, 0⟩ 1 2 = .ok ⟨1, 6, 7, 8⟩ ∧
    ¬ InLoop 0 1 1 8 ∧ ¬ InLoop 2 3 1 8 ∧ ¬ InLoop 4 5 1 8 ∧ ¬ InLoop 6 7 1 8 ∧
    ¬ RangesPartition 2 kmp.sch_static ⟨0, 0, -5, 0⟩ 1 0 (InLoop 0 (-5) 1) ∧
    __kmpc_for_static_init_4 2 0 kmp.sch_static ⟨0, 0, -5, 0⟩ 1 0 =
      .ok ⟨0, 0, 2147483645, -4⟩ ∧
    InLoop 0 2147483645 1 0 ∧ ¬ InLoop 0 (-5) 1 0 := by
  have h0 : __kmpc_for_static_init_4 4 0 kmp.sch_static_chunked ⟨0, 0, 15, 0⟩ 1 2 =
      .ok ⟨0, 0, 1, 8⟩ := by decide
  have h1 : __kmpc_for_static_init_4 4 1 kmp.sch_static_chunked ⟨0, 0, 15, 0⟩ 1 2 =
      .ok ⟨0, 2, 3, 8⟩ := by decide
  have h2 : __kmpc_for_static_init_4 4 2 kmp.sch_static_chunked ⟨0, 0, 15, 0⟩ 1 2 =
      .ok ⟨0, 4, 5, 8⟩ := by decide
  have h3 : __kmpc_for_static_init_4 4 3 kmp.sch_static_chunked ⟨0, 0, 15, 0⟩ 1 2 =
      .ok ⟨1, 6, 7, 8⟩ := by decide
  have he : __kmpc_for_static_init_4 2 0 kmp.sch_static ⟨0, 0, -5, 0⟩ 1 0 =
      .ok ⟨0, 0, 2147483645, -4⟩ := by decide
  have n0 : ¬ InLoop 0 1 1 8 := by decide
  have n1 : ¬ InLoop 2 3 1 8 := by decide
  have n2 : ¬ InLoop 4 5 1 8 := by decide
  have n3 : ¬ InLoop 6 7 1 8 := by decide
  refine ⟨?_, by decide, h0, h1, h2, h3, n0, n1, n2, n3, ?_, he, by decide, by decide⟩
  · rintro ⟨-, hcov, -⟩
    obtain ⟨t, r, ht0, ht, hr, hx⟩ := (hcov 8).1 (by decide)
    interval_cases t
    · rw [h0] at hr
      cases hr
      exact n0 hx
    · rw [h1] at hr
      cases hr
      exact n1 hx
    · rw [h2] at hr
      cases hr
      exact n2 hx
    · rw [h3] at hr
      cases hr
      exact n3 hx
  · rintro ⟨-, hcov, -⟩
    have : InLoop 0 (-5) 1 0 := (hcov 0).2 ⟨0, _, le_refl _, by decide, he, by decide⟩
    exact absurd this (by decide)

/-! ## Thread-count and device knobs -/

/-- C19. For every `k ≥ 0`, after `omp_set_max_active_levels(k)` the accessor
`omp_get_max_active_levels()` returns `k`, and calling
`omp_set_max_active_levels(k)` any number `m + 1 ≥ 1` of times in a row leaves
exactly the state left by calling it once. -/
theorem set_max_active_levels_idempotent (s : ThreadState) (k : Int) (hk : 0 ≤ k) :
    omp_get_max_active_levels (omp_set_max_active_levels s k) = k ∧
    omp_set_max_active_levels (omp_set_max_active_levels s k) k =
      omp_set_max_active_levels s k ∧
    ∀ m : Nat, Nat.iterate (fun st => omp_set_max_active_levels st k) (m + 1) s =
      omp_set_max_active_levels s k := by
  have hneg : ¬ (k < 0) := by omega
  have h1 : ∀ st, omp_set_max_active_levels (omp_set_max_active_levels st k) k =
      omp_set_max_active_levels st k := by
    intro st
    simp [omp_set_max_active_levels, hneg]
  refine ⟨by simp [omp_get_max_active_levels, omp_set_max_active_levels, hneg], h1 s, ?_⟩
  intro m
  induction m with
  | zero => rfl
  | succ m ih =>
    rw [Function.iterate_succ_apply', ih]
    exact h1 s

/-- C19 with `k = 3` on a thread at the outer level. -/
theorem set_max_active_levels_idempotent_witness :
    omp_get_max_active_levels (omp_set_max_active_levels ⟨0, ⟨0, 1, 1, 0⟩, 0, -1⟩ 3) = 3 ∧
    omp_set_max_active_levels (omp_set_max_active_levels ⟨0, ⟨0, 1, 1, 0⟩, 0, -1⟩ 3) 3 =
      omp_set_max_active_levels ⟨0, ⟨0, 1, 1, 0⟩, 0, -1⟩ 3 ∧
    ∀ m : Nat, Nat.iterate (fun st => omp_set_max_active_levels st 3) (m + 1)
        ⟨0, ⟨0, 1, 1, 0⟩, 0, -1⟩ =
      omp_set_max_active_levels ⟨0, ⟨0, 1, 1, 0⟩, 0, -1⟩ 3 :=
  set_max_active_levels_idempotent ⟨0, ⟨0, 1, 1, 0⟩, 0, -1⟩ 3 (by decide)

/-- C20. Invalid knob arguments are ignored: `omp_set_num_threads(n)` sets
`wantedNumThreads` to `n` if `n > 0`, `__kmpc_push_num_threads(_, _, n)` sets
`pushedNumThreads` to `n` if `n > 0`, `omp_set_max_active_levels(level)` sets
`maxActiveLevel` to `level` if `level ≥ 0`, each leaving every other field
unchanged; otherwise the call returns with the whole state unchanged. So each
call changes its field exactly when the argument is accepted and differs from
the current value. -/
theorem invalid_knobs_ignored (s : ThreadState) (loc globalTid n level : Int) :
    (0 < n → omp_set_num_threads s n = { s with wantedNumThreads := n }) ∧
    (n ≤ 0 → omp_set_num_threads s n = s) ∧
    (0 < n → __kmpc_push_num_threads s loc globalTid n = { s with pushedNumThreads := n }) ∧
    (n ≤ 0 → __kmpc_push_num_threads s loc globalTid n = s) ∧
    (0 ≤ level → omp_set_max_active_levels s level =
      { s with thisLevel := { s.thisLevel with maxActiveLevel := level } }) ∧
    (level < 0 → omp_set_max_active_levels s level = s) ∧
    ((omp_set_num_threads s n).wantedNumThreads ≠ s.wantedNumThreads → 0 < n) ∧
    ((__kmpc_push_num_threads s loc globalTid n).pushedNumThreads ≠ s.pushedNumThreads →
      0 < n) ∧
    ((omp_set_max_active_levels s level).thisLevel.maxActiveLevel ≠
      s.thisLevel.maxActiveLevel → 0 ≤ level) := by
  refine ⟨?_, ?_, ?_, ?_, ?_, ?_, ?_, ?_, ?_⟩
  · intro h
    simp [omp_set_num_threads, h]
  · intro h
    have : ¬ (n > 0) := by omega
    simp [omp_set_num_threads, this]
  · intro h
    simp [__kmpc_push_num_threads, h]
  · intro h
    have : ¬ (n > 0) := by omega
    simp [__kmpc_push_num_threads, this]
  · intro h
    have : ¬ (level < 0) := by omega
    simp [omp_set_max_active_levels, this]
  · intro h
    simp [omp_set_max_active_levels, h]
  · intro h
    by_contra hc
    have : ¬ (n > 0) := hc
    simp [omp_set_num_threads, this] at h
  · intro h
    by_contra hc
    have : ¬ (n > 0) := hc
    simp [__kmpc_push_num_threads, this] at h
  · intro h
    by_contra hc
    have : level < 0 := by omega
    simp [omp_set_max_active_levels, this] at h

/-- C20 with the accepted argument 4 and the accepted level 2. -/
theorem invalid_knobs_ignored_witness :
    omp_set_num_threads ⟨0, ⟨0, 1, 1, 0⟩, 0, -1⟩ 4 = ⟨0, ⟨0, 1, 1, 0⟩, 4, -1⟩ ∧
    __kmpc_push_num_threads ⟨0, ⟨0, 1, 1, 0⟩, 0, -1⟩ 0 0 4 = ⟨0, ⟨0, 1, 1, 0⟩, 0, 4⟩ ∧
    omp_set_max_active_levels ⟨0, ⟨0, 1, 1, 0⟩, 0, -1⟩ 2 = ⟨0, ⟨0, 1, 2, 0⟩, 0, -1⟩ :=
  ⟨(invalid_knobs_ignored ⟨0, ⟨0, 1, 1, 0⟩, 0, -1⟩ 0 0 4 2).1 (by decide),
   (invalid_knobs_ignored ⟨0, ⟨0, 1, 1, 0⟩, 0, -1⟩ 0 0 4 2).2.2.1 (by decide),
   (invalid_knobs_ignored ⟨0, ⟨0, 1, 1, 0⟩, 0, -1⟩ 0 0 4 2).2.2.2.2.1 (by decide)⟩

/-- C18. `omp_set_default_device` does not ignore the most negative 32-bit
value: `abs(-2147483648)` overflows to `-2147483648`, the test
`abs(n) > 1` fails, and `userDefaultDevice` becomes `-2147483648`, which
`omp_get_num_devices` then returns. -/
theorem set_default_device_most_negative :
    abs (-2147483648) = -2147483648 ∧
    omp_set_default_device ⟨0, ⟨0, 1, 1, 0⟩, 0, -1⟩ (-2147483648) =
      ⟨0, ⟨0, 1, 1, -2147483648⟩, 0, -1⟩ ∧
    omp_get_num_devices (omp_set_default_device ⟨0, ⟨0, 1, 1, 0⟩, 0, -1⟩ (-2147483648)) =
      -2147483648 ∧
    omp_set_default_device ⟨0, ⟨0, 1, 1, 0⟩, 0, -1⟩ (-2147483647) =
      ⟨0, ⟨0, 1, 1, 0⟩, 0, -1⟩ := by
  decide

/-- Outside the most negative value, `omp_set_default_device` accepts exactly
the arguments `-1`, `0` and `1`. -/
theorem set_default_device_spec (s : ThreadState) (n : Int) (hn : InSigned 32 n)
    (hmin : n ≠ -2147483648) :
    omp_set_default_device s n =
      if -1 ≤ n ∧ n ≤ 1 then { s with thisLevel := { s.thisLevel with userDefaultDevice := n } }
      else s := by
  rw [inSigned_32] at hn
  have habs : abs n = if n < 0 then -n else n := by
    unfold abs
    split
    · simp only [negS, toSigned_32]
      omega
    · rfl
  unfold omp_set_default_device
  rw [habs]
  by_cases h : -1 ≤ n ∧ n ≤ 1
  · have : ¬ ((if n < 0 then -n else n) > 1) := by split <;> omega
    simp only [this, h, if_false, and_self, if_true]
  · have : (if n < 0 then -n else n) > 1 := by split <;> omega
    simp only [this, h, if_true, if_false]

/-! ## Reductions -/

/-- C16. `startReduction` returns a code fixed by the reduction method of the
current Level: 1 for `criticalBlock`, `emptyBlock` and `multiHostSum`, 2 for
`atomicBlock`, and it raises the unsupported-reduce error for `notDefined`;
it never returns a value other than 1 or 2, and it locks `reduceMutex` if and
only if the method is `criticalBlock`. `__kmpc_reduce` and
`__kmpc_reduce_nowait` do exactly the same for all of their arguments. -/
theorem start_reduction_codes (loc gtid num_vars reduce_size reduce_data reduce_func lck : Int) :
    (startReduction .criticalBlock reduce_data).outcome = .ok 1 ∧
    (startReduction .emptyBlock reduce_data).outcome = .ok 1 ∧
    (startReduction .multiHostSum reduce_data).outcome = .ok 1 ∧
    (startReduction .atomicBlock reduce_data).outcome = .ok 2 ∧
    (startReduction .notDefined reduce_data).outcome = .error .unsupportedReduce ∧
    (∀ m v, (startReduction m reduce_data).outcome = .ok v → v = 1 ∨ v = 2) ∧
    (∀ m, MutexOp.lock ∈ (startReduction m reduce_data).mutexOps ↔ m = .criticalBlock) ∧
    (∀ m, MutexOp.unlock ∉ (startReduction m reduce_data).mutexOps) ∧
    (∀ m, __kmpc_reduce m loc gtid num_vars reduce_size reduce_data reduce_func lck =
      startReduction m reduce_data) ∧
    (∀ m, __kmpc_reduce_nowait m loc gtid num_vars reduce_size reduce_data reduce_func lck =
      startReduction m reduce_data) := by
  refine ⟨rfl, rfl, rfl, rfl, rfl, ?_, ?_, ?_, fun _ => rfl, fun _ => rfl⟩
  · intro m v h
    cases m <;> simp [startReduction] at h <;> omega
  · intro m
    cases m <;> simp [startReduction]
  · intro m
    cases m <;> simp [startReduction]

/-- C16 on the atomic-block method: the returned code is 2. -/
theorem start_reduction_codes_witness :
    (startReduction .atomicBlock 0).outcome = .ok 2 ∧ ((2 : Int) = 1 ∨ (2 : Int) = 2) :=
  ⟨(start_reduction_codes 0 0 1 8 0 0 0).2.2.2.1,
   (start_reduction_codes 0 0 1 8 0 0 0).2.2.2.2.2.1 .atomicBlock 2 rfl⟩

/-- The tally `if (returnCode) numErrors++` started at `acc` counts the failed
children, as long as the `I64` counter cannot overflow. -/
theorem countChildErrors_foldl (children : List ChildWait) :
    ∀ acc : Int, 0 ≤ acc → acc + children.length < 9223372036854775808 →
      children.foldl
        (fun numErrors c => if returnCode c ≠ 0 then addS 64 numErrors 1 else numErrors) acc =
        acc + (children.filter childFailed).length := by
  induction children with
  | nil => intro acc _ _; simp
  | cons c cs ih =>
    intro acc h0 hlt
    simp only [List.length_cons, Nat.cast_add, Nat.cast_one] at hlt
    simp only [List.foldl_cons]
    by_cases hc : returnCode c ≠ 0
    · have hf : childFailed c = true := by
        cases c <;> simp_all [returnCode, childFailed]
      have hadd : addS 64 acc 1 = acc + 1 := by
        simp only [addS, toSigned_64]
        omega
      rw [if_pos hc, hadd]
      simp only [List.filter_cons, hf, if_true]
      rw [ih (acc + 1) (by omega) (by omega)]
      simp only [List.length_cons, Nat.cast_add, Nat.cast_one]
      omega
    · have hf : childFailed c = false := by
        cases c <;> simp_all [returnCode, childFailed]
      rw [if_neg hc]
      simp only [List.filter_cons, hf]
      rw [ih acc h0 (by omega)]
      simp

/-- The error tally of the distributed branch is the number of failed
children. -/
theorem countChildErrors_eq (children : List ChildWait)
    (h : (children.length : Int) < 9223372036854775808) :
    countChildErrors children = (children.filter childFailed).length := by
  have := countChildErrors_foldl children 0 (le_refl _) (by omega)
  simpa [countChildErrors] using this

/-- A team size held in an `int` gives fewer than `2^63` thread numbers. -/
theorem toNat_lt_of_inSigned (n : Int) (h : InSigned 32 n) :
    ((n.toNat : Nat) : Int) < 9223372036854775808 := by
  rw [inSigned_32] at h
  omega

/-- What `__kmpc_fork_call` does on the distributed branch. -/
theorem fork_call_distributed (env : ForkEnv) (s : ThreadState)
    (locPtr argc microtaskPtr argsPtr : Int) (hdev : s.thisLevel.userDefaultDevice < 0) :
    __kmpc_fork_call env s locPtr argc microtaskPtr argsPtr =
      { state := { s with pushedNumThreads := -1 },
        scheduled := (List.range (get_next_level_num_threads env.defaultNumThreads s).toNat).map
          (chainedCall env s.thisLevel argc microtaskPtr
            (get_next_level_num_threads env.defaultNumThreads s)),
        waited := (List.range (get_next_level_num_threads env.defaultNumThreads s).toNat).map
          env.messageId,
        submitted := [],
        outcome := forkJoin s.thisLevel.userDefaultDevice
          ((List.range (get_next_level_num_threads env.defaultNumThreads s).toNat).map
            (fun t => env.getFunctionResult (env.messageId t))) [] } := by
  have h : 0 > s.thisLevel.userDefaultDevice := hdev
  simp only [__kmpc_fork_call, h, if_true, List.map_map]
  rfl

/-- What `__kmpc_fork_call` does on the single-host branch. -/
theorem fork_call_local (env : ForkEnv) (s : ThreadState)
    (locPtr argc microtaskPtr argsPtr : Int) (hdev : 0 ≤ s.thisLevel.userDefaultDevice) :
    __kmpc_fork_call env s locPtr argc microtaskPtr argsPtr =
      { state := { s with pushedNumThreads := -1 },
        scheduled := [],
        waited := [],
        submitted := (List.range (get_next_level_num_threads env.defaultNumThreads s).toNat).map
          (localThread env
            (SingleHostLevel s.thisLevel (get_next_level_num_threads env.defaultNumThreads s))
            argc microtaskPtr),
        outcome := forkJoin s.thisLevel.userDefaultDevice []
          ((List.range (get_next_level_num_threads env.defaultNumThreads s).toNat).map
            env.future) } := by
  have h : ¬ (0 > s.thisLevel.userDefaultDevice) := by omega
  simp only [__kmpc_fork_call, h, if_false]

/-- The distributed join throws exactly when some child failed, with the
number of failed children. -/
theorem forkJoin_distributed (d : Int) (children : List ChildWait) (codes : List Int)
    (hd : d < 0) (h : (children.length : Int) < 9223372036854775808) :
    forkJoin d children codes =
      if 0 < (children.filter childFailed).length then
        .error (.teamExecutionFailed (children.filter childFailed).length)
      else .ok () := by
  have hd' : 0 > d := hd
  simp only [forkJoin, hd', if_true, countChildErrors_eq children h]
  by_cases hc : 0 < (children.filter childFailed).length
  · have : ((children.filter childFailed).length : Int) ≠ 0 := by omega
    simp only [hc, this, if_true, ne_eq, not_false_eq_true]
  · have : ((children.filter childFailed).length : Int) = 0 := by omega
    simp only [hc, this, if_false, ne_eq, not_true_eq_false]

/-- C11. Distributed fork join: when `userDefaultDevice < 0` and the team size
is `N`, `__kmpc_fork_call` waits on every one of the `N` children in
thread-number order, whatever the waits give (a failed or timed-out wait does
not stop the join), counts a child as one error iff its result has a nonzero
`returnValue` or its wait timed out or threw, throws the team-execution error
with that count `n` iff `n > 0`, and returns normally iff every child
returned 0. -/
theorem distributed_join (env : ForkEnv) (s : ThreadState)
    (locPtr argc microtaskPtr argsPtr : Int) (hdev : s.thisLevel.userDefaultDevice < 0)
    (hN : InSigned 32 (get_next_level_num_threads env.defaultNumThreads s)) :
    (__kmpc_fork_call env s locPtr argc microtaskPtr argsPtr).waited =
      (List.range (get_next_level_num_threads env.defaultNumThreads s).toNat).map
        env.messageId ∧
    (__kmpc_fork_call env s locPtr argc microtaskPtr argsPtr).waited =
      (__kmpc_fork_call env s locPtr argc microtaskPtr argsPtr).scheduled.map
        (fun call => call.id) ∧
    (__kmpc_fork_call env s locPtr argc microtaskPtr argsPtr).waited.length =
      (get_next_level_num_threads env.defaultNumThreads s).toNat ∧
    (__kmpc_fork_call env s locPtr argc microtaskPtr argsPtr).outcome =
      (if 0 < (((__kmpc_fork_call env s locPtr argc microtaskPtr argsPtr).waited.map
          env.getFunctionResult).filter childFailed).length then
        .error (.teamExecutionFailed
          (((__kmpc_fork_call env s locPtr argc microtaskPtr argsPtr).waited.map
            env.getFunctionResult).filter childFailed).length)
      else .ok ()) ∧
    ((__kmpc_fork_call env s locPtr argc microtaskPtr argsPtr).outcome = .ok () ↔
      ∀ id ∈ (__kmpc_fork_call env s locPtr argc microtaskPtr argsPtr).waited,
        env.getFunctionResult id = .result 0) := by
  rw [fork_call_distributed env s locPtr argc microtaskPtr argsPtr hdev]
  generalize get_next_level_num_threads env.defaultNumThreads s = N at *
  have hlen : (((List.range N.toNat).map
      (fun t => env.getFunctionResult (env.messageId t))).length : Int) <
      9223372036854775808 := by
    simp only [List.length_map, List.length_range]
    exact toNat_lt_of_inSigned N hN
  have hout := forkJoin_distributed s.thisLevel.userDefaultDevice _ [] hdev hlen
  have hmm : (List.range N.toNat).map (fun t => env.getFunctionResult (env.messageId t)) =
      ((List.range N.toNat).map env.messageId).map env.getFunctionResult := by
    simp [List.map_map]
  refine ⟨rfl, ?_, by simp, ?_, ?_⟩
  · simp only [List.map_map]
    rfl
  · simp only
    rw [hout, hmm]
  · simp only
    rw [hout, hmm]
    generalize (List.range N.toNat).map env.messageId = ids
    constructor
    · intro h id hid
      by_cases hc : 0 < ((ids.map env.getFunctionResult).filter childFailed).length
      · simp [hc] at h
      · have hnil : (ids.map env.getFunctionResult).filter childFailed = [] := by
          apply List.eq_nil_of_length_eq_zero
          omega
        have hall := List.filter_eq_nil_iff.1 hnil (env.getFunctionResult id)
          (List.mem_map_of_mem _ hid)
        cases hr : env.getFunctionResult id with
        | result v =>
          rw [hr] at hall
          simp [childFailed] at hall
          rw [hall]
        | timedOut =>
          rw [hr] at hall
          simp [childFailed] at hall
        | exception =>
          rw [hr] at hall
          simp [childFailed] at hall
    · intro h
      have hnil : (ids.map env.getFunctionResult).filter childFailed = [] := by
        apply List.filter_eq_nil_iff.2
        intro c hc
        obtain ⟨id, hid, rfl⟩ := List.mem_map.1 hc
        rw [h id hid]
        simp [childFailed]
      simp [hnil]

/-- C11 on the distributed scenario of the specification: the three children
are waited on in the order of their thread numbers. -/
theorem distributed_join_witness :
    (__kmpc_fork_call threeChildren (outerLevel (-1)) 0 2 7 64).waited =
      (List.range (get_next_level_num_threads threeChildren.defaultNumThreads
        (outerLevel (-1))).toNat).map threeChildren.messageId :=
  (distributed_join threeChildren (outerLevel (-1)) 0 2 7 64 (by decide) (by decide)).1

/-- When every child returned 0 or 1, the number of failed children is the sum
of the return values. -/
theorem failed_count_eq_sum (children : List ChildWait)
    (h : ∀ c ∈ children, c = .result 0 ∨ c = .result 1) :
    (((children.filter childFailed).length : Nat) : Int) = (children.map returnCode).sum := by
  induction children with
  | nil => simp
  | cons c cs ih =>
    have ih' := ih (fun c' hc' => h c' (List.mem_cons_of_mem _ hc'))
    rcases h c (List.mem_cons_self _ _) with rfl | rfl
    · simp [childFailed, returnCode, ih']
    · simp [childFailed, returnCode, ih']
      omega

/-- C12, as amended. Distributed fork: the error count `n` reported by the
team-execution error is the number of children whose `returnValue` is nonzero
or whose wait failed; when every child returned 0 or 1 it equals the sum of
the children's `returnValue`s, so the fork throws with that sum iff the sum is
positive. Three children returning 0, 1, 0 make the fork throw with
`n = 1`. -/
theorem distributed_count_vs_sum (env : ForkEnv) (s : ThreadState)
    (locPtr argc microtaskPtr argsPtr : Int) (hdev : s.thisLevel.userDefaultDevice < 0)
    (hN : InSigned 32 (get_next_level_num_threads env.defaultNumThreads s)) :
    (∀ n, (__kmpc_fork_call env s locPtr argc microtaskPtr argsPtr).outcome =
        .error (.teamExecutionFailed n) →
      n = (((__kmpc_fork_call env s locPtr argc microtaskPtr argsPtr).waited.map
        env.getFunctionResult).filter childFailed).length) ∧
    ((∀ id ∈ (__kmpc_fork_call env s locPtr argc microtaskPtr argsPtr).waited,
        env.getFunctionResult id = .result 0 ∨ env.getFunctionResult id = .result 1) →
      (__kmpc_fork_call env s locPtr argc microtaskPtr argsPtr).outcome =
        (if 0 < (((__kmpc_fork_call env s locPtr argc microtaskPtr argsPtr).waited.map
            (fun id => returnCode (env.getFunctionResult id))).sum) then
          .error (.teamExecutionFailed
            (((__kmpc_fork_call env s locPtr argc microtaskPtr argsPtr).waited.map
              (fun id => returnCode (env.getFunctionResult id))).sum))
        else .ok ())) ∧
    (__kmpc_fork_call threeChildren (outerLevel (-1)) locPtr argc microtaskPtr argsPtr).outcome =
      .error (.teamExecutionFailed 1) := by
  rw [fork_call_distributed env s locPtr argc microtaskPtr argsPtr hdev]
  generalize get_next_level_num_threads env.defaultNumThreads s = N at *
  have hlen : (((List.range N.toNat).map
      (fun t => env.getFunctionResult (env.messageId t))).length : Int) <
      9223372036854775808 := by
    simp only [List.length_map, List.length_range]
    exact toNat_lt_of_inSigned N hN
  have hout := forkJoin_distributed s.thisLevel.userDefaultDevice _ [] hdev hlen
  have hmm : (List.range N.toNat).map (fun t => env.getFunctionResult (env.messageId t)) =
      ((List.range N.toNat).map env.messageId).map env.getFunctionResult := by
    simp [List.map_map]
  simp only
  rw [hout, hmm]
  generalize (List.range N.toNat).map env.messageId = ids
  refine ⟨fun n hn => ?_, fun h01 => ?_, ?_⟩
  · by_cases hc : 0 < ((ids.map env.getFunctionResult).filter childFailed).length
    · simp only [hc, if_true] at hn
      cases hn
      rfl
    · simp [hc] at hn
  · have hsum := failed_count_eq_sum (ids.map env.getFunctionResult) (by
      intro c hc
      obtain ⟨id, hid, rfl⟩ := List.mem_map.1 hc
      exact h01 id hid)
    have hmap : (ids.map env.getFunctionResult).map returnCode =
        ids.map (fun id => returnCode (env.getFunctionResult id)) := by
      simp [List.map_map]
    rw [hmap] at hsum
    rw [← hsum]
    by_cases hc : 0 < ((ids.map env.getFunctionResult).filter childFailed).length
    · have : (0 : Int) < (((ids.map env.getFunctionResult).filter childFailed).length : Nat) := by
        omega
      simp only [hc, this, if_true]
    · have : ¬ ((0 : Int) < (((ids.map env.getFunctionResult).filter childFailed).length : Nat)) := by
        omega
      simp only [hc, this, if_false]
  · rfl

/-- C12 as amended, on the distributed scenario of the specification. -/
theorem distributed_count_vs_sum_witness :
    (__kmpc_fork_call threeChildren (outerLevel (-1)) 0 2 7 64).outcome =
      .error (.teamExecutionFailed 1) :=
  (distributed_count_vs_sum threeChildren (outerLevel (-1)) 0 2 7 64 (by decide)
    (by decide)).2.2

/-- C12 as stated fails: when the only child returns 2, the sum of the
`returnValue`s is 2 but the fork reports one failed thread; when the only
child times out there is no `returnValue` and the fork still reports one. -/
theorem distributed_count_is_not_sum :
    (__kmpc_fork_call
      { threeChildren with getFunctionResult := fun _ => .result 2, defaultNumThreads := 1 }
      (outerLevel (-1)) 0 2 7 64).outcome = .error (.teamExecutionFailed 1) ∧
    ([ChildWait.result 2].map returnCode).sum = 2 ∧
    (__kmpc_fork_call
      { threeChildren with getFunctionResult := fun _ => .timedOut, defaultNumThreads := 1 }
      (outerLevel (-1)) 0 2 7 64).outcome = .error (.teamExecutionFailed 1) := by
  decide

/-- C13. Distributed fan-out: when `userDefaultDevice < 0` and the computed
next team size is `N`, `__kmpc_fork_call` hands exactly `N` messages to the
scheduler, in the order `t = 0 .. N - 1`, and runs no local team member; the
`t`-th message has the user and function of the parent call,
`ompThreadNum = t`, `ompNumThreads = N`, `funcPtr = microtaskPtr`, the same
`snapshotKey` and `snapshotSize` as every other child, and `ompFunctionArgs`
equal to the `argc` guest argument pointers in reverse order. -/
theorem distributed_fan_out (env : ForkEnv) (s : ThreadState)
    (locPtr argc microtaskPtr argsPtr : Int) (hdev : s.thisLevel.userDefaultDevice < 0)
    (hN : 0 ≤ get_next_level_num_threads env.defaultNumThreads s) :
    ((__kmpc_fork_call env s locPtr argc microtaskPtr argsPtr).scheduled.length : Int) =
      get_next_level_num_threads env.defaultNumThreads s ∧
    (__kmpc_fork_call env s locPtr argc microtaskPtr argsPtr).submitted = [] ∧
    (∀ t : Nat, (t : Int) < get_next_level_num_threads env.defaultNumThreads s →
      ∃ m, (__kmpc_fork_call env s locPtr argc microtaskPtr argsPtr).scheduled[t]? = some m ∧
        m.user = env.user ∧ m.function = env.function ∧
        m.ompThreadNum = t ∧
        m.ompNumThreads = get_next_level_num_threads env.defaultNumThreads s ∧
        m.funcPtr = microtaskPtr ∧
        m.ompFunctionArgs = ((List.range argc.toNat).map env.nativeArgs).reverse) ∧
    (∀ m ∈ (__kmpc_fork_call env s locPtr argc microtaskPtr argsPtr).scheduled,
      ∀ m' ∈ (__kmpc_fork_call env s locPtr argc microtaskPtr argsPtr).scheduled,
        m.snapshotKey = m'.snapshotKey ∧ m.snapshotSize = m'.snapshotSize) := by
  rw [fork_call_distributed env s locPtr argc microtaskPtr argsPtr hdev]
  generalize get_next_level_num_threads env.defaultNumThreads s = N at *
  refine ⟨?_, rfl, fun t ht => ?_, fun m hm m' hm' => ?_⟩
  · simp only [List.length_map, List.length_range]
    omega
  · have htn : t < N.toNat := by omega
    refine ⟨chainedCall env s.thisLevel argc microtaskPtr N t, ?_, rfl, rfl, rfl, rfl, rfl, ?_⟩
    · simp only [List.getElem?_map, List.getElem?_range htn, Option.map_some']
    · simp only [chainedCall, List.map_reverse]
  · obtain ⟨t, -, rfl⟩ := List.mem_map.1 hm
    obtain ⟨t', -, rfl⟩ := List.mem_map.1 hm'
    exact ⟨rfl, rfl⟩

/-- C13 on the distributed scenario of the specification. -/
theorem distributed_fan_out_witness :
    ((__kmpc_fork_call threeChildren (outerLevel (-1)) 0 2 7 64).scheduled.length : Int) =
      get_next_level_num_threads threeChildren.defaultNumThreads (outerLevel (-1)) :=
  (distributed_fan_out threeChildren (outerLevel (-1)) 0 2 7 64 (by decide) (by decide)).1

/-! ## Fork: the single-host branch -/

/-- C14. Local team dispatch: when `userDefaultDevice ≥ 0` and the computed
next team size is `N`, `__kmpc_fork_call` submits exactly `N` members to the
OMP pool with the thread numbers `0, 1, ..., N - 1`, each exactly once, posts
no message to the scheduler and waits on none, gives every member the same
new Level, and passes member `t` the argument list
`[t, argc, arg_0, ..., arg_(argc-1)]`, the pointers being in the order of the
guest. -/
theorem local_team_dispatch (env : ForkEnv) (s : ThreadState)
    (locPtr argc microtaskPtr argsPtr : Int) (hdev : 0 ≤ s.thisLevel.userDefaultDevice)
    (hN : 0 ≤ get_next_level_num_threads env.defaultNumThreads s) :
    ((__kmpc_fork_call env s locPtr argc microtaskPtr argsPtr).submitted.length : Int) =
      get_next_level_num_threads env.defaultNumThreads s ∧
    (__kmpc_fork_call env s locPtr argc microtaskPtr argsPtr).submitted.map (fun a => a.tid) =
      (List.range (get_next_level_num_threads env.defaultNumThreads s).toNat).map
        (fun t : Nat => (t : Int)) ∧
    ((__kmpc_fork_call env s locPtr argc microtaskPtr argsPtr).submitted.map
      (fun a => a.tid)).Nodup ∧
    (__kmpc_fork_call env s locPtr argc microtaskPtr argsPtr).scheduled = [] ∧
    (__kmpc_fork_call env s locPtr argc microtaskPtr argsPtr).waited = [] ∧
    (∀ t : Nat, (t : Int) < get_next_level_num_threads env.defaultNumThreads s →
      ∃ a, (__kmpc_fork_call env s locPtr argc microtaskPtr argsPtr).submitted[t]? = some a ∧
        a.tid = t ∧
        a.level = SingleHostLevel s.thisLevel
          (get_next_level_num_threads env.defaultNumThreads s) ∧
        a.func = microtaskPtr ∧
        a.funcArgs = [(t : Int), argc] ++ (List.range argc.toNat).map env.nativeArgs) := by
  rw [fork_call_local env s locPtr argc microtaskPtr argsPtr hdev]
  generalize get_next_level_num_threads env.defaultNumThreads s = N at *
  have htid : ((List.range N.toNat).map
      (localThread env (SingleHostLevel s.thisLevel N) argc microtaskPtr)).map (fun a => a.tid) =
      (List.range N.toNat).map (fun t : Nat => (t : Int)) := by
    simp only [List.map_map]
    rfl
  refine ⟨?_, htid, ?_, rfl, rfl, fun t ht => ?_⟩
  · simp only [List.length_map, List.length_range]
    omega
  · simp only
    rw [htid]
    exact (List.nodup_range _).map (fun a b h => by exact_mod_cast h)
  · have htn : t < N.toNat := by omega
    refine ⟨localThread env (SingleHostLevel s.thisLevel N) argc microtaskPtr t, ?_, rfl, rfl,
      rfl, ?_⟩
    · simp only [List.getElem?_map, List.getElem?_range htn, Option.map_some']
    · simp only [localThread]
      by_cases hc : argc > 0
      · simp only [hc, if_true]
      · have : argc.toNat = 0 := by omega
        simp only [hc, if_false, this, List.range_zero, List.map_nil]

/-- C14 on a thread at the outer level with the local device and a host
default of three threads. -/
theorem local_team_dispatch_witness :
    ((__kmpc_fork_call threeChildren (outerLevel 0) 0 2 7 64).submitted.length : Int) =
      get_next_level_num_threads threeChildren.defaultNumThreads (outerLevel 0) :=
  (local_team_dispatch threeChildren (outerLevel 0) 0 2 7 64 (by decide) (by decide)).1

/-! ## The pushed thread count -/

/-- C15, as amended. The pushed thread count is one-shot: if
`__kmpc_push_num_threads(_, _, k)` is called with `k > 0` and
`__kmpc_fork_call` runs next, that fork's team size is `k` provided
`depth + 1 ≤ maxActiveLevel` (and 1 otherwise); after that fork, whatever its
outcome and on both branches, `pushedNumThreads` is `-1` and the rest of the
thread state is as before the push, so a later fork with no new push uses
`wantedNumThreads` or the default, not `k`. -/
theorem pushed_num_threads_one_shot (env : ForkEnv) (s : ThreadState)
    (loc globalTid k locPtr argc microtaskPtr argsPtr : Int) (hk : 0 < k) :
    (s.thisLevel.depth + 1 ≤ s.thisLevel.maxActiveLevel →
      get_next_level_num_threads env.defaultNumThreads
        (__kmpc_push_num_threads s loc globalTid k) = k ∧
      (s.thisLevel.userDefaultDevice < 0 →
        ((__kmpc_fork_call env (__kmpc_push_num_threads s loc globalTid k)
          locPtr argc microtaskPtr argsPtr).scheduled.length : Int) = k ∧
        ∀ m ∈ (__kmpc_fork_call env (__kmpc_push_num_threads s loc globalTid k)
          locPtr argc microtaskPtr argsPtr).scheduled, m.ompNumThreads = k) ∧
      (0 ≤ s.thisLevel.userDefaultDevice →
        ((__kmpc_fork_call env (__kmpc_push_num_threads s loc globalTid k)
          locPtr argc microtaskPtr argsPtr).submitted.length : Int) = k ∧
        ∀ a ∈ (__kmpc_fork_call env (__kmpc_push_num_threads s loc globalTid k)
          locPtr argc microtaskPtr argsPtr).submitted, a.level.numThreads = k)) ∧
    (s.thisLevel.depth + 1 > s.thisLevel.maxActiveLevel →
      get_next_level_num_threads env.defaultNumThreads
        (__kmpc_push_num_threads s loc globalTid k) = 1) ∧
    (__kmpc_fork_call env (__kmpc_push_num_threads s loc globalTid k)
      locPtr argc microtaskPtr argsPtr).state = { s with pushedNumThreads := -1 } ∧
    (__kmpc_fork_call env (__kmpc_push_num_threads s loc globalTid k)
      locPtr argc microtaskPtr argsPtr).state.pushedNumThreads ≤ 0 ∧
    get_next_level_num_threads env.defaultNumThreads
      (__kmpc_fork_call env (__kmpc_push_num_threads s loc globalTid k)
        locPtr argc microtaskPtr argsPtr).state =
      (if s.thisLevel.depth + 1 > s.thisLevel.maxActiveLevel then 1
       else if s.wantedNumThreads > 0 then s.wantedNumThreads
       else env.defaultNumThreads) := by
  have hk' : k > 0 := hk
  have hpush : __kmpc_push_num_threads s loc globalTid k = { s with pushedNumThreads := k } := by
    simp only [__kmpc_push_num_threads, hk', if_true]
  rw [hpush]
  obtain ⟨s1, hs1⟩ : ∃ s1 : ThreadState, s1 = { s with pushedNumThreads := k } := ⟨_, rfl⟩
  rw [← hs1]
  have hlev : s1.thisLevel = s.thisLevel := by rw [hs1]
  have hpk : s1.pushedNumThreads = k := by rw [hs1]
  have hreset : ({ s1 with pushedNumThreads := -1 } : ThreadState) =
      { s with pushedNumThreads := -1 } := by rw [hs1]
  have hstate : (__kmpc_fork_call env s1 locPtr argc microtaskPtr argsPtr).state =
      { s with pushedNumThreads := -1 } := by
    by_cases hdev : s1.thisLevel.userDefaultDevice < 0
    · rw [fork_call_distributed env s1 locPtr argc microtaskPtr argsPtr hdev]
      exact hreset
    · rw [fork_call_local env s1 locPtr argc microtaskPtr argsPtr (by simpa using hdev)]
      exact hreset
  refine ⟨fun hd => ?_, fun hd => ?_, hstate, ?_, ?_⟩
  · have hnd : ¬ (s1.thisLevel.depth + 1 > s1.thisLevel.maxActiveLevel) := by
      rw [hlev]; omega
    have hpos : s1.pushedNumThreads > 0 := by rw [hpk]; exact hk'
    have hnext : get_next_level_num_threads env.defaultNumThreads s1 = k := by
      simp only [get_next_level_num_threads, hnd, hpos, if_true, if_false]
      exact hpk
    refine ⟨hnext, fun hdev => ?_, fun hdev => ?_⟩
    · rw [fork_call_distributed env s1 locPtr argc microtaskPtr argsPtr (by rw [hlev]; exact hdev),
        hnext]
      refine ⟨?_, fun m hm => ?_⟩
      · simp only [List.length_map, List.length_range]
        omega
      · obtain ⟨t, -, rfl⟩ := List.mem_map.1 hm
        rfl
    · rw [fork_call_local env s1 locPtr argc microtaskPtr argsPtr (by rw [hlev]; exact hdev),
        hnext]
      refine ⟨?_, fun a ha => ?_⟩
      · simp only [List.length_map, List.length_range]
        omega
      · obtain ⟨t, -, rfl⟩ := List.mem_map.1 ha
        rfl
  · have hd' : s1.thisLevel.depth + 1 > s1.thisLevel.maxActiveLevel := by
      rw [hlev]; exact hd
    simp only [get_next_level_num_threads, hd', if_true]
  · rw [hstate]
    show (-1 : Int) ≤ 0
    decide
  · rw [hstate]
    simp only [get_next_level_num_threads]
    have : ¬ ((-1 : Int) > 0) := by decide
    simp only [this, if_false]

/-- C15 as amended: a push of 4 on a thread at the outer level with the local
device gives the next fork a team of four. -/
theorem pushed_num_threads_one_shot_witness :
    get_next_level_num_threads threeChildren.defaultNumThreads
      (__kmpc_push_num_threads (outerLevel 0) 0 0 4) = 4 :=
  ((pushed_num_threads_one_shot threeChildren (outerLevel 0) 0 0 4 0 2 7 64 (by decide)).1
    (by decide)).1

/-- C15 as stated fails: with `maxActiveLevel = 0` at depth 0, a push of 4
followed by a fork gives a team of one member, not four. -/
theorem pushed_num_threads_clamped :
    (__kmpc_fork_call threeChildren
      (__kmpc_push_num_threads ⟨0, ⟨0, 1, 0, 0⟩, 0, -1⟩ 0 0 4) 0 2 7 64).submitted.length = 1 ∧
    (__kmpc_fork_call threeChildren
      (__kmpc_push_num_threads ⟨0, ⟨0, 1, 0, 0⟩, 0, -1⟩ 0 0 4) 0 2 7 64).submitted.map
        (fun a => a.level.numThreads) = [1] ∧
    get_next_level_num_threads threeChildren.defaultNumThreads
      (__kmpc_push_num_threads ⟨0, ⟨0, 1, 0, 0⟩, 0, -1⟩ 0 0 4) = 1 ∧
    omp_set_max_active_levels (outerLevel 0) 0 = ⟨0, ⟨0, 1, 0, 0⟩, 0, -1⟩ := by
  decide

/-! ## Stores of `for_static_init` -/

/-- The stores of `for_static_init` end in the bounds it returns, and it
throws exactly the exception they record. -/
theorem for_static_init_stores_agree (w : Nat) (n t schedule : Int) (b : LoopBounds)
    (incr chunk : Int) :
    for_static_init w n t schedule b incr chunk =
      match for_static_init_stores w n t schedule b incr chunk with
      | (r, none) => .ok r
      | (_, some e) => .error e := by
  unfold for_static_init for_static_init_stores
  by_cases h1 : n = 1
  · simp only [h1, if_true]
  simp only [h1, if_false]
  cases htc : tripCount w b.lower b.upper incr with
  | error e => simp only
  | ok tc =>
    simp only
    by_cases h33 : schedule = kmp.sch_static_chunked
    · simp only [h33, if_true, staticChunked]
      by_cases hc : toUnsigned 32 (if chunk < 1 then 1 else chunk) = 0
      · simp only [hc, if_true]
      · by_cases hn : toUnsigned w n = 0
        · simp only [hc, hn, if_true, if_false]
        · simp only [hc, hn, if_false]
    · simp only [h33, if_false]
      by_cases h34 : schedule = kmp.sch_static
      · simp only [h34, if_true, staticBalanced]
        by_cases hs : tc < toUnsigned w n
        · by_cases ht : toUnsigned w t < tc
          · simp only [hs, ht, if_true]
          · simp only [hs, ht, if_true, if_false]
        · by_cases hn : toUnsigned w n = 0
          · have hs' : ¬ (tc < 0) := by rw [hn] at hs; exact hs
            simp only [hn, hs', if_true, if_false]
          · simp only [hs, hn, if_false]
      · simp only [h34, if_false]

/-- The trip count fails only through a division by zero. -/
theorem tripCount_error (w : Nat) (lower upper incr : Int) (e : Fault)
    (h : tripCount w lower upper incr = .error e) : e = .divisionByZero := by
  unfold tripCount at h
  split_ifs at h
  cases h
  rfl

/-- The static-chunked case fails only through a division by zero. -/
theorem staticChunked_error (w : Nat) (n t tc : Int) (b : LoopBounds) (incr chunk : Int)
    (e : Fault) (h : staticChunked w n t tc b incr chunk = .error e) :
    e = .divisionByZero := by
  unfold staticChunked at h
  simp only at h
  split_ifs at h <;> cases h <;> rfl

/-- The static case fails only through a division by zero. -/
theorem staticBalanced_error (w : Nat) (n t tc : Int) (b : LoopBounds) (incr : Int)
    (e : Fault) (h : staticBalanced w n t tc b incr = .error e) : e = .divisionByZero := by
  unfold staticBalanced at h
  simp only at h
  split_ifs at h
  cases h
  rfl

/-- C22. Failure atomicity of `for_static_init`: whenever a call, of either
width, throws the unimplemented-scheduler error, the guest locations
`*lower`, `*upper`, `*stride` and `*lastIter` hold exactly the values they
held before the call; this happens only with a team size other than 1 and a
schedule other than 33 and 34, and the error names that schedule. -/
theorem unimplemented_schedule_atomic (w : Nat) (n t schedule : Int) (b : LoopBounds)
    (incr chunk s' : Int)
    (h : for_static_init w n t schedule b incr chunk = .error (.unimplementedScheduler s')) :
    for_static_init_stores w n t schedule b incr chunk =
      (b, some (.unimplementedScheduler s')) ∧
    s' = schedule ∧ n ≠ 1 ∧ schedule ≠ kmp.sch_static_chunked ∧ schedule ≠ kmp.sch_static := by
  unfold for_static_init at h
  unfold for_static_init_stores
  by_cases h1 : n = 1
  · simp only [h1, if_true] at h
    cases h
  simp only [h1, if_false] at h ⊢
  cases htc : tripCount w b.lower b.upper incr with
  | error e =>
    rw [htc] at h
    have := tripCount_error w _ _ _ e htc
    subst this
    cases h
  | ok tc =>
    rw [htc] at h
    simp only at h ⊢
    by_cases h33 : schedule = kmp.sch_static_chunked
    · simp only [h33, if_true] at h
      have := staticChunked_error w n t tc b incr chunk _ h
      cases this
    · simp only [h33, if_false] at h ⊢
      by_cases h34 : schedule = kmp.sch_static
      · simp only [h34, if_true] at h
        have := staticBalanced_error w n t tc b incr _ h
        cases this
      · simp only [h34, if_false] at h ⊢
        cases h
        exact ⟨rfl, rfl, h1, h33, h34⟩

/-- C22 on schedule 35 with two threads and the loop `0 .. 9`: the four
locations are as before the 32-bit call. -/
theorem unimplemented_schedule_atomic_witness :
    for_static_init_stores 32 2 0 35 ⟨7, 0, 9, 5⟩ 1 0 =
      (⟨7, 0, 9, 5⟩, some (.unimplementedScheduler 35)) ∧
    (35 : Int) = 35 ∧ (2 : Int) ≠ 1 ∧ (35 : Int) ≠ kmp.sch_static_chunked ∧
    (35 : Int) ≠ kmp.sch_static :=
  unimplemented_schedule_atomic 32 2 0 35 ⟨7, 0, 9, 5⟩ 1 0 35 (by decide)

/-- C23. Empty loop under the static schedule: for a team of `n ≥ 2` threads,
`incr = 1` and `upper = lower - 1` (trip count 0), `__kmpc_for_static_init_4`
gives every thread `t` in `[0, n)` the empty range `lower' = upper + 1`,
`upper' = upper`, sets `stride' = 0` and sets `lastIter = 0`. -/
theorem static_empty_loop (n t lower chunk li st : Int) (hn : 2 ≤ n) (hn32 : InSigned 32 n)
    (ht0 : 0 ≤ t) (ht : t < n) (hlo : InSigned 32 lower) (hup : InSigned 32 (lower - 1)) :
    ∃ r, __kmpc_for_static_init_4 n t kmp.sch_static ⟨li, lower, lower - 1, st⟩ 1 chunk =
        .ok r ∧
      r.lower = (lower - 1) + 1 ∧ r.upper = lower - 1 ∧ r.upper < r.lower ∧
      r.stride = 0 ∧ r.lastIter = 0 ∧
      iterations r.lower r.upper 1 = 0 ∧ (∀ x, ¬ InLoop r.lower r.upper 1 x) := by
  rw [inSigned_32] at hn32 hlo hup
  have h1 : ¬ (n = 1) := by omega
  have htc : tripCount 32 lower (lower - 1) 1 = .ok 0 := by
    simp only [tripCount, if_true, addS, subS, toSigned_32, toUnsigned_32]
    congr 1
    omega
  have hnU : toUnsigned 32 n = n := by rw [toUnsigned_32]; omega
  have htU : toUnsigned 32 t = t := by rw [toUnsigned_32]; omega
  have hpos : (0 : Int) < n := by omega
  have hnt : ¬ (t < 0) := by omega
  have hsub : subU 32 0 1 = 4294967295 := by decide
  have hne : ¬ (t = 4294967295) := by omega
  have hadd : addS 32 (lower - 1) 1 = lower - 1 + 1 := by
    simp only [addS, toSigned_32]
    omega
  have hs0 : toSigned 32 0 = 0 := by decide
  have hcall : __kmpc_for_static_init_4 n t kmp.sch_static ⟨li, lower, lower - 1, st⟩ 1 chunk =
      .ok ⟨0, lower - 1 + 1, lower - 1, 0⟩ := by
    simp only [__kmpc_for_static_init_4, for_static_init, h1, if_false, htc]
    have hsch : ¬ (kmp.sch_static = kmp.sch_static_chunked) := by decide
    simp only [hsch, if_false, if_true, staticBalanced, hnU, htU, hpos, hnt, hsub, hne, hadd, hs0]
  refine ⟨_, hcall, rfl, rfl, ?_, rfl, rfl, ?_, ?_⟩
  · show lower - 1 < lower - 1 + 1
    omega
  · show iterations (lower - 1 + 1) (lower - 1) 1 = 0
    have : ¬ (lower - 1 + 1 ≤ lower - 1) := by omega
    simp [iterations, this]
  · intro x hx
    have hb := (inLoop_bounds _ _ _ _ hx).1 (by decide)
    simp only at hb
    omega

/-- C23 on the empty loop `5 .. 4` with four threads, thread 2. -/
theorem static_empty_loop_witness :
    ∃ r, __kmpc_for_static_init_4 4 2 kmp.sch_static ⟨0, 5, 5 - 1, 0⟩ 1 0 = .ok r ∧
      r.lower = (5 - 1) + 1 ∧ r.upper = 5 - 1 ∧ r.upper < r.lower ∧
      r.stride = 0 ∧ r.lastIter = 0 ∧
      iterations r.lower r.upper 1 = 0 ∧ (∀ x, ¬ InLoop r.lower r.upper 1 x) :=
  static_empty_loop 4 2 5 0 0 0 (by decide) (by decide) (by decide) (by decide) (by decide)
    (by decide)

/-! ## Static-chunked schedule: round-robin chunks -/

/-- Ascending case of `clipped_steps`. -/
theorem clipped_steps_pos (lower upper incr a b x : Int) (h : 0 < incr) (hlu : lower ≤ upper)
    (ha : 0 ≤ a) :
    InLoop (lower + incr * a) (min (lower + incr * b) upper) incr x ↔
      ∃ j, a ≤ j ∧ j ≤ b ∧ j ≤ iterations lower upper incr - 1 ∧ x = lower + incr * j := by
  have hfull := inLoop_iff_pos lower upper incr x h hlu
  have hst := inLoop_steps_pos lower incr a b x h
  constructor
  · intro hx
    have hx' := hx
    unfold InLoop at hx'
    simp only [h, if_true] at hx'
    obtain ⟨h1, h2, h3⟩ := hx'
    have hin : InLoop (lower + incr * a) (lower + incr * b) incr x := by
      unfold InLoop
      simp only [h, if_true]
      exact ⟨h1, le_trans h2 (min_le_left _ _), h3⟩
    obtain ⟨j, hj1, hj2, rfl⟩ := hst.1 hin
    have hj0 : 0 ≤ incr * j := Int.mul_nonneg (by omega) (by omega)
    have hfullx : InLoop lower upper incr (lower + incr * j) := by
      unfold InLoop
      simp only [h, if_true]
      refine ⟨by omega, le_trans h2 (min_le_right _ _), ?_⟩
      have : lower + incr * j - lower = incr * j := by ring
      rw [this]
      exact Int.mul_emod_right _ _
    obtain ⟨j', hj0', hj1', he⟩ := hfull.1 hfullx
    have he' : incr * j = incr * j' := by linarith
    have : j = j' := Int.eq_of_mul_eq_mul_left (by omega) he'
    subst this
    exact ⟨j, hj1, hj2, hj1', rfl⟩
  · rintro ⟨j, hj1, hj2, hj3, rfl⟩
    have hin := hst.2 ⟨j, hj1, hj2, rfl⟩
    have hfullx := hfull.2 ⟨j, by omega, hj3, rfl⟩
    unfold InLoop at hin hfullx ⊢
    simp only [h, if_true] at hin hfullx ⊢
    exact ⟨hin.1, le_min hin.2.1 hfullx.2.1, hin.2.2⟩

/-- The iterations of a chunk clipped to the loop are the values
`lower + incr * j` whose index `j` lies in the chunk and in the loop. -/
theorem clipped_steps (lower upper incr a b x : Int) (hi : incr ≠ 0)
    (hp : 0 < incr → lower ≤ upper) (hm : incr < 0 → upper ≤ lower) (ha : 0 ≤ a) :
    InLoop (lower + incr * a) (clipUpper incr upper (lower + incr * b)) incr x ↔
      ∃ j, a ≤ j ∧ j ≤ b ∧ j ≤ iterations lower upper incr - 1 ∧ x = lower + incr * j := by
  unfold clipUpper
  rcases lt_or_gt_of_ne hi with h | h
  · have h0 : ¬ (0 < incr) := by omega
    simp only [h0, if_false]
    rw [inLoop_neg _ _ _ _ h, iterations_neg _ _ _ h]
    have e1 : -(lower + incr * a) = -lower + -incr * a := by ring
    have e2 : -(max (lower + incr * b) upper) = min (-lower + -incr * b) (-upper) := by
      have e3 : -incr * b = -(incr * b) := by ring
      rw [max_def, min_def, e3]
      split <;> split <;> omega
    rw [e1, e2, clipped_steps_pos (-lower) (-upper) (-incr) a b (-x) (by omega)
      (by have := hm h; omega) ha]
    constructor
    · rintro ⟨j, h1, h2, h3, h4⟩
      exact ⟨j, h1, h2, h3, by linear_combination -h4⟩
    · rintro ⟨j, h1, h2, h3, h4⟩
      exact ⟨j, h1, h2, h3, by linear_combination -h4⟩
  · simp only [h, if_true]
    exact clipped_steps_pos lower upper incr a b x h (hp h) ha

/-- Ascending case of `iterations_le_chunk`. -/
theorem iterations_le_chunk_pos (lo up incr c : Int) (h : 0 < incr) (hc : 1 ≤ c)
    (hup : up ≤ lo + incr * (c - 1)) : iterations lo up incr ≤ c := by
  unfold iterations
  simp only [h, if_true]
  split
  · have h1 : (up - lo) / incr ≤ (incr * (c - 1)) / incr :=
      Int.ediv_le_ediv h (by omega)
    rw [Int.mul_ediv_cancel_left _ (by omega)] at h1
    omega
  · omega

/-- A range that ends at most `c - 1` steps after its start has at most `c`
iterations. -/
theorem iterations_le_chunk (lo up incr c : Int) (hi : incr ≠ 0) (hc : 1 ≤ c)
    (hp : 0 < incr → up ≤ lo + incr * (c - 1)) (hm : incr < 0 → lo + incr * (c - 1) ≤ up) :
    iterations lo up incr ≤ c := by
  rcases lt_or_gt_of_ne hi with h | h
  · rw [iterations_neg _ _ _ h]
    apply iterations_le_chunk_pos (-lo) (-up) (-incr) c (by omega) hc
    have := hm h
    have e : -lo + -incr * (c - 1) = -(lo + incr * (c - 1)) := by ring
    omega
  · exact iterations_le_chunk_pos lo up incr c h hc (hp h)

/-- A chunk number `q = k * n + t` determines the thread `t` and the round
`k`. -/
theorem chunk_number_unique (n t k t' k' : Int) (ht0 : 0 ≤ t) (ht : t < n) (ht0' : 0 ≤ t')
    (ht' : t' < n) (h : k * n + t = k' * n + t') : t = t' ∧ k = k' := by
  have h1 : (t + k * n) % n = t := by
    rw [Int.add_mul_emod_self, Int.emod_eq_of_lt ht0 ht]
  have h2 : (t' + k' * n) % n = t' := by
    rw [Int.add_mul_emod_self, Int.emod_eq_of_lt ht0' ht']
  have h3 : t + k * n = t' + k' * n := by omega
  have htt : t = t' := by rw [← h1, ← h2, h3]
  refine ⟨htt, ?_⟩
  have : k * n = k' * n := by omega
  exact Int.eq_of_mul_eq_mul_right (by omega) this

/-- C21. Static-chunked round-robin coverage: for schedule `static_chunked`, a
team of `n ≥ 2` threads, `chunk ≥ 1`, a nonzero increment and a 32-bit loop
with at least one iteration and no overflow, the chunks obtained for each
thread `t` by advancing its `(lower', upper')` by `k = 0, 1, 2, ...` strides
and clipping to the upper bound of the loop are pairwise disjoint across all
threads and all `k`, each holds at most `chunk` iterations, and their union
is exactly the iteration set of the loop; chunk number `q` counting from
`lower` (the iterations of index `q * chunk` to `(q + 1) * chunk - 1`) is
chunk `q / n` of thread `q mod n`. -/
theorem static_chunked_round_robin (n lower upper incr chunk li st : Int)
    (hl : NonemptyLoop 32 lower upper incr) (hn : 2 ≤ n) (hn32 : InSigned 32 n)
    (hc : 1 ≤ chunk) (hch : InSigned 32 chunk)
    (hf1 : InSigned 32 (chunk * incr * n)) (hf2 : InSigned 32 (lower + chunk * incr * n)) :
    ∃ f : Int → LoopBounds,
      (∀ t, 0 ≤ t → t < n →
        __kmpc_for_static_init_4 n t kmp.sch_static_chunked ⟨li, lower, upper, st⟩ incr chunk =
          .ok (f t)) ∧
      (∀ x, InLoop lower upper incr x ↔
        ∃ t k, 0 ≤ t ∧ t < n ∧ 0 ≤ k ∧ InChunk (f t) incr upper k x) ∧
      (∀ t k t' k' x, 0 ≤ t → t < n → 0 ≤ k → 0 ≤ t' → t' < n → 0 ≤ k' →
        InChunk (f t) incr upper k x → InChunk (f t') incr upper k' x → t = t' ∧ k = k') ∧
      (∀ t k, 0 ≤ t → t < n → 0 ≤ k →
        iterations ((f t).lower + k * (f t).stride)
          (clipUpper incr upper ((f t).upper + k * (f t).stride)) incr ≤ chunk) ∧
      (∀ q, 0 ≤ q →
        (f (q % n)).lower + q / n * (f (q % n)).stride = lower + q * (chunk * incr) ∧
        ∀ x, InChunk (f (q % n)) incr upper (q / n) x ↔
          ∃ j, q * chunk ≤ j ∧ j < (q + 1) * chunk ∧ j < iterations lower upper incr ∧
            x = lower + incr * j) := by
  have hl' := hl
  obtain ⟨hlo, hup, hinc, hi, hp, hm, hd, hd', hfit⟩ := hl'
  have hcc : (if chunk < 1 then 1 else chunk) = chunk := if_neg (by omega)
  have hcl := fun t ht0 ht => staticChunked_32_eq n t (iterations lower upper incr) lower upper
    incr chunk li st hlo hinc hi hch hn32 ht0 ht (by rw [hcc]; exact hf1) (by rw [hcc]; exact hf2)
  simp only [hcc] at hcl
  have hcall := fun t => for_static_init_32_chunked n t lower upper incr chunk li st hl hn
  generalize htcdef : iterations lower upper incr = tc at *
  -- membership in chunk `k` of thread `t`, by iteration indices
  have key : ∀ t k x, 0 ≤ t → 0 ≤ k →
      (InLoop (lower + chunk * incr * t + k * (chunk * incr * n))
        (clipUpper incr upper
          (lower + chunk * incr * t + chunk * incr - incr + k * (chunk * incr * n))) incr x ↔
        ∃ j, chunk * (k * n + t) ≤ j ∧ j ≤ chunk * (k * n + t) + chunk - 1 ∧ j ≤ tc - 1 ∧
          x = lower + incr * j) := by
    intro t k x ht0 hk0
    have e1 : lower + chunk * incr * t + k * (chunk * incr * n) =
        lower + incr * (chunk * (k * n + t)) := by ring
    have e2 : lower + chunk * incr * t + chunk * incr - incr + k * (chunk * incr * n) =
        lower + incr * (chunk * (k * n + t) + chunk - 1) := by ring
    have hq0 : 0 ≤ k * n + t := by
      have : 0 ≤ k * n := Int.mul_nonneg hk0 (by omega)
      omega
    rw [e1, e2, clipped_steps lower upper incr _ _ x hi hp hm (Int.mul_nonneg (by omega) hq0),
      htcdef]
  have mono : ∀ q q' : Int, q + 1 ≤ q' → chunk * q + chunk ≤ chunk * q' := by
    intro q q' h
    have : chunk * (q + 1) ≤ chunk * q' := Int.mul_le_mul_of_nonneg_left h (by omega)
    have e : chunk * (q + 1) = chunk * q + chunk := by ring
    omega
  have htc1 : 1 ≤ tc := by
    rw [← htcdef]
    exact (iterations_spec lower upper incr hi hp hm).1
  refine ⟨fun t => ⟨if t = (subU 32 tc 1 / chunk) % n then 1 else 0, lower + chunk * incr * t,
    lower + chunk * incr * t + chunk * incr - incr, chunk * incr * n⟩,
    fun t ht0 ht => (hcall t).trans (hcl t ht0 ht), fun x => ?_,
    fun t k t' k' x ht0 ht hk0 ht0' ht' hk0' hx hx' => ?_, fun t k ht0 ht hk0 => ?_,
    fun q hq0 => ?_⟩
  · -- union
    rw [inLoop_iff lower upper incr x hi hp hm, htcdef]
    constructor
    · rintro ⟨j, hj0, hj1, rfl⟩
      have ha := Int.mul_ediv_self_le (x := j) (k := chunk) (by omega)
      have hb := Int.lt_mul_ediv_self_add (x := j) (k := chunk) (by omega)
      have hq0 : 0 ≤ j / chunk := Int.ediv_nonneg hj0 (by omega)
      generalize j / chunk = q at *
      have hr0 := Int.emod_nonneg q (b := n) (by omega)
      have hr1 := Int.emod_lt_of_pos q (b := n) (by omega)
      have hk0 : 0 ≤ q / n := Int.ediv_nonneg hq0 (by omega)
      have hdm : q / n * n + q % n = q := by
        have := Int.ediv_add_emod q n
        linarith
      refine ⟨q % n, q / n, hr0, hr1, hk0, ?_⟩
      unfold InChunk
      simp only
      rw [key (q % n) (q / n) _ hr0 hk0, hdm]
      exact ⟨j, ha, by omega, hj1, rfl⟩
    · rintro ⟨t, k, ht0, ht, hk0, hx⟩
      unfold InChunk at hx
      simp only at hx
      rw [key t k x ht0 hk0] at hx
      obtain ⟨j, hj1, hj2, hj3, rfl⟩ := hx
      have h0 : 0 ≤ chunk * (k * n + t) := by
        have : 0 ≤ k * n := Int.mul_nonneg hk0 (by omega)
        exact Int.mul_nonneg (by omega) (by omega)
      exact ⟨j, by omega, hj3, rfl⟩
  · -- disjointness
    unfold InChunk at hx hx'
    simp only at hx hx'
    rw [key t k x ht0 hk0] at hx
    rw [key t' k' x ht0' hk0'] at hx'
    obtain ⟨j, hj1, hj2, hj3, rfl⟩ := hx
    obtain ⟨j', hj1', hj2', hj3', he⟩ := hx'
    have he' : incr * j = incr * j' := by linarith
    have hjj : j = j' := Int.eq_of_mul_eq_mul_left hi he'
    subst hjj
    have hqq : k * n + t = k' * n + t' := by
      rcases lt_trichotomy (k * n + t) (k' * n + t') with h | h | h
      · have := mono _ _ (by omega : k * n + t + 1 ≤ k' * n + t')
        omega
      · exact h
      · have := mono _ _ (by omega : k' * n + t' + 1 ≤ k * n + t)
        omega
    exact chunk_number_unique n t k t' k' ht0 ht ht0' ht' hqq
  · -- at most `chunk` iterations
    simp only
    have e : lower + chunk * incr * t + chunk * incr - incr + k * (chunk * incr * n) =
        lower + chunk * incr * t + k * (chunk * incr * n) + incr * (chunk - 1) := by ring
    rw [e]
    apply iterations_le_chunk _ _ _ _ hi hc
    · intro h
      simp only [clipUpper, h, if_true]
      exact min_le_left _ _
    · intro h
      have h0 : ¬ (0 < incr) := by omega
      simp only [clipUpper, h0, if_false]
      exact le_max_left _ _
  · -- round robin
    have hr0 := Int.emod_nonneg q (b := n) (by omega)
    have hk0 : 0 ≤ q / n := Int.ediv_nonneg hq0 (by omega)
    have hdm : q / n * n + q % n = q := by
      have := Int.ediv_add_emod q n
      linarith
    refine ⟨?_, fun x => ?_⟩
    · simp only
      linear_combination (chunk * incr) * hdm
    · unfold InChunk
      simp only
      rw [key (q % n) (q / n) x hr0 hk0, hdm]
      have e1 : q * chunk = chunk * q := by ring
      have e2 : (q + 1) * chunk = chunk * q + chunk := by ring
      rw [e1, e2]
      constructor
      · rintro ⟨j, h1, h2, h3, h4⟩
        exact ⟨j, h1, by omega, by omega, h4⟩
      · rintro ⟨j, h1, h2, h3, h4⟩
        exact ⟨j, h1, by omega, by omega, h4⟩

/-- C21 on the chunked scenario of the specification: the loop `0 .. 15` by
1 with chunks of 2 dealt round-robin to four threads. -/
theorem static_chunked_round_robin_witness :
    ∃ f : Int → LoopBounds,
      (∀ t, 0 ≤ t → t < 4 →
        __kmpc_for_static_init_4 4 t kmp.sch_static_chunked ⟨0, 0, 15, 0⟩ 1 2 = .ok (f t)) ∧
      (∀ x, InLoop 0 15 1 x ↔ ∃ t k, 0 ≤ t ∧ t < 4 ∧ 0 ≤ k ∧ InChunk (f t) 1 15 k x) ∧
      (∀ t k t' k' x, 0 ≤ t → t < 4 → 0 ≤ k → 0 ≤ t' → t' < 4 → 0 ≤ k' →
        InChunk (f t) 1 15 k x → InChunk (f t') 1 15 k' x → t = t' ∧ k = k') ∧
      (∀ t k, 0 ≤ t → t < 4 → 0 ≤ k →
        iterations ((f t).lower + k * (f t).stride)
          (clipUpper 1 15 ((f t).upper + k * (f t).stride)) 1 ≤ 2) ∧
      (∀ q, 0 ≤ q →
        (f (q % 4)).lower + q / 4 * (f (q % 4)).stride = 0 + q * (2 * 1) ∧
        ∀ x, InChunk (f (q % 4)) 1 15 (q / 4) x ↔
          ∃ j, q * 2 ≤ j ∧ j < (q + 1) * 2 ∧ j < iterations 0 15 1 ∧ x = 0 + 1 * j) :=
  static_chunked_round_robin 4 0 15 1 2 0 0 (by decide) (by decide) (by decide) (by decide)
    (by decide) (by decide) (by decide)

end wasm
